import Mathlib

/-!
# Reversi (Othello) engine: board, flips, moves and the turn loop

A shallow embedding of `src/a5test.cpp`.

* `int` values (`Cell::row`, `Cell::col`, the piece counters) are `Int`.  The updates
  `scores[..] += 1 + cells.size()` and `scores[..] -= cells.size()` of `makeMove` compute in
  `size_t` and store the result back into an `int`: the stored value is the integer result
  wrapped to 32 bits, two's complement (`toInt32`).
* `std::string` is `String`; the tokens read are ASCII, one `char` per character.
* `enum class Color : char` is a wrapped character code: besides the three enumerators it
  can hold any other `char` value (a value-initialised `Color` is code 0).
* `vector<vector<Color>>` of the fixed size 8 x 8 is a function on `Fin 8 × Fin 8`; an
  indexing `board[r][c]` with `r` or `c` outside `0..7` has no value (`none`).
* `map<Color, int>` read and written through `operator[]` is a total function
  `Color → Int` (an absent key reads as 0).
* Console output is not modelled.
-/

namespace Reversi

/-! ## Data model -/

/-- The type `enum class Color : char`, by the code of its underlying character. -/
structure Color where
  code : Nat
deriving DecidableEq, Repr

/-- Enumerator `Color::white = 'o'`. -/
def Color.white : Color := ⟨111⟩

/-- Enumerator `Color::black = 'x'`. -/
def Color.black : Color := ⟨120⟩

/-- Enumerator `Color::none = '.'`, the marker of an empty cell. -/
def Color.none : Color := ⟨46⟩

/-- The struct `Cell`: a row and a column number. -/
structure Cell where
  row : Int
  col : Int
deriving DecidableEq, Repr

/-- Method `Cell::inSquare`: the cell lies in the square `[mn..mx] x [mn..mx]`. -/
def Cell.inSquare (c : Cell) (mn mx : Int) : Bool :=
  decide (c.row ≥ mn) && decide (c.row ≤ mx) && decide (c.col ≥ mn) && decide (c.col ≤ mx)

/-- The class `Board`: the colors of the 8 x 8 cells and the piece counter of each color. -/
structure Board where
  board : Fin 8 → Fin 8 → Color
  scores : Color → Int

/-- Constant `Board::size`. -/
def Board.size : Int := 8

/-- The read `board[c.row][c.col]`; `none` when an index is outside the vector. -/
def Board.get? (b : Board) (c : Cell) : Option Color :=
  if h : 0 ≤ c.row ∧ c.row < 8 ∧ 0 ≤ c.col ∧ c.col < 8 then
    some (b.board ⟨c.row.toNat, by omega⟩ ⟨c.col.toNat, by omega⟩)
  else
    Option.none

/-- The write `board[c.row][c.col] = v`; `none` when an index is outside the vector. -/
def Board.set? (b : Board) (c : Cell) (v : Color) : Option Board :=
  if 0 ≤ c.row ∧ c.row < 8 ∧ 0 ≤ c.col ∧ c.col < 8 then
    some { b with
      board := fun i j => if (i.val : Int) = c.row ∧ (j.val : Int) = c.col then v else b.board i j }
  else
    Option.none

/-- The value stored in an `int` (32 bits, two's complement) by a compound assignment whose
right operand is a `size_t`: the integer result wrapped modulo `2 ^ 32`. -/
def toInt32 (x : Int) : Int :=
  (x + 2147483648) % 4294967296 - 2147483648

/-- The write `scores[k] = v` on the counter map. -/
def setScore (s : Color → Int) (k : Color) (v : Int) : Color → Int :=
  fun c => if c = k then v else s c

/-! ## `Board::flips` -/

/-- The condition of the `while` loop of `Board::flips`: `current` is on the board and holds
a piece whose color is neither `none` nor `color`. -/
def Board.loopCond (b : Board) (color : Color) (current : Cell) : Bool :=
  current.inSquare 0 (Board.size - 1) && (b.get? current != some Color.none)
    && (b.get? current != some color)

/-- The `while` loop of `Board::flips` along the direction `(x, y)`, from the state
`(current, tempFlips)`; it returns the state the loop ends in.  The first argument bounds
the number of executions of the loop body (`walk_stops` shows that 8 are never exceeded). -/
def Board.walk (b : Board) (color : Color) (x y : Int) : Nat → Cell → List Cell → Cell × List Cell
  | 0, current, tempFlips => (current, tempFlips)
  | fuel + 1, current, tempFlips =>
    if b.loopCond color current then
      b.walk color x y fuel ⟨current.row + x, current.col + y⟩ (tempFlips ++ [current])
    else
      (current, tempFlips)

/-- The body of the two nested `for` loops of `Board::flips` for the direction `(x, y)`:
walk, then append the remembered cells to `result` when a piece of `color` was met. -/
def Board.flipsDir (b : Board) (cell : Cell) (color : Color) (result : List Cell) (x y : Int) :
    List Cell :=
  let r := b.walk color x y 8 ⟨cell.row + x, cell.col + y⟩ []
  if r.1.inSquare 0 (Board.size - 1) && (b.get? r.1 == some color) then result ++ r.2
  else result

/-- The directions in the order the loops `for x in -1..1`, `for y in -1..1` visit them,
`(0, 0)` skipped. -/
def directions : List (Int × Int) :=
  ([-1, 0, 1].flatMap fun x => [-1, 0, 1].map fun y => ((x, y) : Int × Int)).filter
    fun d => !(d.1 == 0 && d.2 == 0)

/-- Method `Board::flips`: the cells flipped by placing a piece of `color` on `cell`. -/
def Board.flips (b : Board) (cell : Cell) (color : Color) : List Cell :=
  directions.foldl (fun result d => b.flipsDir cell color result d.1 d.2) []

/-- Method `Board::countFlips`. -/
def Board.countFlips (b : Board) (cell : Cell) (color : Color) : Int :=
  ((b.flips cell color).length : Int)

/-! ## `Board::initOthello`, `validMove`, `makeMove`, `canMove` -/

/-- Method `Board::initOthello`. -/
def Board.initOthello (b : Board) : Board :=
  { board := fun i j =>
      if (i.val = 3 ∧ j.val = 4) ∨ (i.val = 4 ∧ j.val = 3) then Color.black
      else if (i.val = 3 ∧ j.val = 3) ∨ (i.val = 4 ∧ j.val = 4) then Color.white
      else Color.none
    scores := setScore (setScore b.scores Color.white 2) Color.black 2 }

/-- Method `Board::validMove`; `none` when `board[cell.row][cell.col]` is outside the
vector. -/
def Board.validMove (b : Board) (cell : Cell) (color : Color) : Option Bool :=
  match b.get? cell with
  | Option.none => Option.none
  | some v =>
    if v ≠ Color.none then some false
    else if b.countFlips cell color = 0 then some false
    else some true

/-- The loop `for i: board[cells[i].row][cells[i].col] = color` of `Board::makeMove`. -/
def Board.flipAll (color : Color) : Board → List Cell → Option Board
  | b, [] => some b
  | b, c :: rest =>
    match b.set? c color with
    | Option.none => Option.none
    | some b1 => Board.flipAll color b1 rest

/-- Method `Board::makeMove`; `none` when it indexes a vector outside its range (`cells[0]`
of an empty flip list, or a cell outside the board). -/
def Board.makeMove (b : Board) (cell : Cell) (color : Color) : Option Board :=
  let cells := b.flips cell color
  let s1 := setScore b.scores color (toInt32 (b.scores color + (1 + (cells.length : Int))))
  match cells with
  | [] => Option.none
  | c0 :: _ =>
    match b.get? c0 with
    | Option.none => Option.none
    | some k =>
      let s2 := setScore s1 k (toInt32 (s1 k - (cells.length : Int)))
      match Board.set? { b with scores := s2 } cell color with
      | Option.none => Option.none
      | some b1 => Board.flipAll color b1 cells

/-- The cells `Cell(i, j)` in the order of the loops `for i in 0..7`, `for j in 0..7`. -/
def allCells : List Cell :=
  (List.range 8).flatMap fun (i : Nat) =>
    (List.range 8).map fun (j : Nat) => (⟨(i : Int), (j : Int)⟩ : Cell)

/-- The scan of `Board::canMove` over the cells still to visit. -/
def Board.canMoveFrom (b : Board) (color : Color) : List Cell → Option Bool
  | [] => some false
  | c :: rest =>
    match b.validMove c color with
    | Option.none => Option.none
    | some true => some true
    | some false => b.canMoveFrom color rest

/-- Method `Board::canMove`. -/
def Board.canMove (b : Board) (color : Color) : Option Bool :=
  b.canMoveFrom color allCells

/-- Constructor `Board::Board()`: 8 rows of 8 value-initialised colors (character code 0)
and an empty counter map. -/
def Board.ctor : Board := { board := fun _ _ => ⟨0⟩, scores := fun _ => 0 }

/-! ## The players -/

/-- The library function `tolower` on the codes of ASCII characters. -/
def tolower (c : Int) : Int :=
  if 65 ≤ c ∧ c ≤ 90 then c + 32 else c

/-- Method `Human_player::validTurnString`: the returned boolean and the value of the
reference argument `cell` on return. -/
def Human_player.validTurnString (turn : String) (cell : Cell) : Bool × Cell :=
  match turn.data with
  | [t0, t1] =>
    if (t0.toNat : Int) < ('1'.toNat : Int) ∨ (t0.toNat : Int) > ('8'.toNat : Int) ∨
        tolower (t1.toNat : Int) < ('a'.toNat : Int) ∨
        tolower (t1.toNat : Int) > ('h'.toNat : Int) then
      (false, cell)
    else
      (true, ⟨(t0.toNat : Int) - ('1'.toNat : Int), (t1.toNat : Int) - ('a'.toNat : Int)⟩)
  | _ => (false, cell)

/-- Method `Human_player::validTurn` of a player of the color `color`. -/
def Human_player.validTurn (color : Color) (board : Board) (cell : Cell) : Option Bool :=
  match board.validMove cell color with
  | Option.none => Option.none
  | some false => some false
  | some true => some true

/-- Method `Human_player::makeMove` of a player of the color `color`, reading the tokens of
`input` one after the other; `cell` is the current value of the local variable.  It returns
the board after the move and the input left; `none` when a vector is indexed outside its
range or the input ends before a token is accepted. -/
def Human_player.makeMove (color : Color) (board : Board) :
    List String → Cell → Option (Board × List String)
  | [], _ => Option.none
  | turn :: rest, cell =>
    let r := Human_player.validTurnString turn cell
    if r.1 then
      match Human_player.validTurn color board r.2 with
      | Option.none => Option.none
      | some true =>
        match board.makeMove r.2 color with
        | Option.none => Option.none
        | some b1 => some (b1, rest)
      | some false => Human_player.makeMove color board rest r.2
    else
      Human_player.makeMove color board rest r.2

/-- Method `Computer_player::getPriority` of a player of the color `color`. -/
def Computer_player.getPriority (color : Color) (cell : Cell) (board : Board) : Int :=
  let result := board.countFlips cell color
  if (cell.row = 0 ∨ cell.row = Board.size - 1) ∧ (cell.col = 0 ∨ cell.col = Board.size - 1) then
    result + 10
  else
    result

/-- The first loop of `Computer_player::makeMove`: the vector `possibilities` after the cells
of the list were visited. -/
def Computer_player.collect (color : Color) (board : Board) :
    List Cell → List Cell → Option (List Cell)
  | [], possibilities => some possibilities
  | c :: rest, possibilities =>
    match board.validMove c color with
    | Option.none => Option.none
    | some true => Computer_player.collect color board rest (possibilities ++ [c])
    | some false => Computer_player.collect color board rest possibilities

/-- The second loop of `Computer_player::makeMove` over the indices still to visit, on the
state `(maxIndex, maxPriority)`. -/
def Computer_player.scan (color : Color) (board : Board) (possibilities : List Cell) :
    List Nat → Nat × Int → Option (Nat × Int)
  | [], st => some st
  | i :: rest, st =>
    match possibilities[i]? with
    | Option.none => Option.none
    | some c =>
      let priority := Computer_player.getPriority color c board
      if priority > st.2 then Computer_player.scan color board possibilities rest (i, priority)
      else Computer_player.scan color board possibilities rest st

/-- The cell `Computer_player::makeMove` decides to play; `none` when a vector is indexed
outside its range (`possibilities[0]` of an empty vector). -/
def Computer_player.chooseCell (color : Color) (board : Board) : Option Cell :=
  match Computer_player.collect color board allCells [] with
  | Option.none => Option.none
  | some possibilities =>
    match possibilities[0]? with
    | Option.none => Option.none
    | some p0 =>
      match Computer_player.scan color board possibilities
          (List.range' 1 (possibilities.length - 1))
          (0, Computer_player.getPriority color p0 board) with
      | Option.none => Option.none
      | some st => possibilities[st.1]?

/-- Method `Computer_player::makeMove` of a player of the color `color`. -/
def Computer_player.makeMove (color : Color) (board : Board) : Option Board :=
  match Computer_player.chooseCell color board with
  | Option.none => Option.none
  | some cell => board.makeMove cell color

/-! ## The game -/

/-- The class `Game`: the board, the colors of the two players and the flag `finished`. -/
structure Game where
  board : Board
  human : Color
  computer : Color
  finished : Bool

/-- Method `Game::createPlayers`, for the option the prompt loop accepted (`w` or `b`). -/
def Game.createPlayers (g : Game) (option : Char) : Game :=
  if option = 'w' then { g with human := Color.white, computer := Color.black }
  else { g with human := Color.black, computer := Color.white }

/-- The end of an iteration of the loop of `Game::play` (from `if (!board.canMove(next))` to
`turn = next`): the game and the new value of `turn`. -/
def Game.endTurn (g : Game) (turn next : Color) : Option (Game × Color) :=
  match g.board.canMove next with
  | Option.none => Option.none
  | some true => some (g, next)
  | some false =>
    match g.board.canMove turn with
    | Option.none => Option.none
    | some false => some ({ g with finished := true }, next)
    | some true => some (g, turn)

/-- One iteration of the loop of `Game::play`, with `turn` to move and the human reading
`input`: the game, the new value of `turn` and the input left. -/
def Game.iteration (g : Game) (turn : Color) (input : List String) (cell : Cell) :
    Option (Game × Color × List String) :=
  if turn = g.human then
    match Human_player.makeMove g.human g.board input cell with
    | Option.none => Option.none
    | some (b1, rest) =>
      match Game.endTurn { g with board := b1 } turn g.computer with
      | Option.none => Option.none
      | some (g1, turn1) => some (g1, turn1, rest)
  else
    match Computer_player.makeMove g.computer g.board with
    | Option.none => Option.none
    | some b1 =>
      match Game.endTurn { g with board := b1 } turn g.human with
      | Option.none => Option.none
      | some (g1, turn1) => some (g1, turn1, input)

/-- The start of `Game::play`: the game and the value of `turn` when the loop is entered. -/
def Game.start (g : Game) (option : Char) : Game × Color :=
  (Game.createPlayers { g with finished := false, board := g.board.initOthello } option,
    Color.black)

/-- Method `Board::getScores`: a copy of the counter map. -/
def Board.getScores (b : Board) : Color → Int :=
  b.scores

/-- The three messages `Game::over` can print after the scores. -/
inductive Outcome where
  | tie
  | humanWins
  | computerWins
deriving DecidableEq, Repr

/-- Method `Game::over`, by the message it prints: "It is a tie.", "You win!" or
"Computer win!". -/
def Game.over (g : Game) : Outcome :=
  let scores := g.board.getScores
  if scores g.human = scores g.computer then Outcome.tie
  else if scores g.human > scores g.computer then Outcome.humanWins
  else Outcome.computerWins

/-! ## The queries as methods acting on the object

`validMove`, `countFlips`, `flips` and `canMove` are not `const` methods.  Here they are
translated once more with the object threaded through every statement: each returns its
result together with the object after the call, or `none` when a vector is indexed outside
its range. -/

/-- The read `board[c.row][c.col]` inside a method: the color read and the object after the
read. -/
def Board.read (b : Board) (c : Cell) : Option (Color × Board) :=
  match b.get? c with
  | Option.none => Option.none
  | some v => some (v, b)

/-- The condition of the `while` loop of `Board::flips`, evaluated left to right on the
object. -/
def Board.loopCondS (b : Board) (color : Color) (current : Cell) : Option (Bool × Board) :=
  if current.inSquare 0 (Board.size - 1) then
    match b.read current with
    | Option.none => Option.none
    | some (v, b1) =>
      if v != Color.none then
        match b1.read current with
        | Option.none => Option.none
        | some (w, b2) => some (w != color, b2)
      else some (false, b1)
  else some (false, b)

/-- The `while` loop of `Board::flips` on the object. -/
def Board.walkS (color : Color) (x y : Int) :
    Nat → Board → Cell → List Cell → Option ((Cell × List Cell) × Board)
  | 0, b, current, tempFlips => some ((current, tempFlips), b)
  | fuel + 1, b, current, tempFlips =>
    match b.loopCondS color current with
    | Option.none => Option.none
    | some (true, b1) =>
      Board.walkS color x y fuel b1 ⟨current.row + x, current.col + y⟩ (tempFlips ++ [current])
    | some (false, b1) => some ((current, tempFlips), b1)

/-- The body of the nested `for` loops of `Board::flips` on the object. -/
def Board.flipsDirS (b : Board) (cell : Cell) (color : Color) (result : List Cell) (x y : Int) :
    Option (List Cell × Board) :=
  match Board.walkS color x y 8 b ⟨cell.row + x, cell.col + y⟩ [] with
  | Option.none => Option.none
  | some (r, b1) =>
    if r.1.inSquare 0 (Board.size - 1) then
      match b1.read r.1 with
      | Option.none => Option.none
      | some (v, b2) => if v == color then some (result ++ r.2, b2) else some (result, b2)
    else some (result, b1)

/-- The nested `for` loops of `Board::flips` on the object, over the directions still to
visit. -/
def Board.flipsFrom (cell : Cell) (color : Color) :
    List (Int × Int) → Board → List Cell → Option (List Cell × Board)
  | [], b, result => some (result, b)
  | d :: rest, b, result =>
    match b.flipsDirS cell color result d.1 d.2 with
    | Option.none => Option.none
    | some (result1, b1) => Board.flipsFrom cell color rest b1 result1

/-- Method `Board::flips` on the object. -/
def Board.flipsS (b : Board) (cell : Cell) (color : Color) : Option (List Cell × Board) :=
  Board.flipsFrom cell color directions b []

/-- Method `Board::countFlips` on the object. -/
def Board.countFlipsS (b : Board) (cell : Cell) (color : Color) : Option (Int × Board) :=
  match b.flipsS cell color with
  | Option.none => Option.none
  | some (cells, b1) => some ((cells.length : Int), b1)

/-- Method `Board::validMove` on the object. -/
def Board.validMoveS (b : Board) (cell : Cell) (color : Color) : Option (Bool × Board) :=
  match b.read cell with
  | Option.none => Option.none
  | some (v, b1) =>
    if v ≠ Color.none then some (false, b1)
    else
      match b1.countFlipsS cell color with
      | Option.none => Option.none
      | some (n, b2) => if n = 0 then some (false, b2) else some (true, b2)

/-- The scan of `Board::canMove` on the object, over the cells still to visit. -/
def Board.canMoveFromS (color : Color) : List Cell → Board → Option (Bool × Board)
  | [], b => some (false, b)
  | c :: rest, b =>
    match b.validMoveS c color with
    | Option.none => Option.none
    | some (true, b1) => some (true, b1)
    | some (false, b1) => Board.canMoveFromS color rest b1

/-- Method `Board::canMove` on the object. -/
def Board.canMoveS (b : Board) (color : Color) : Option (Bool × Board) :=
  Board.canMoveFromS color allCells b

/-! ## Notions used to state the properties -/

/-- The states `(game, turn)` at the head of the loop of `Game::play`. -/
inductive Game.AtLoopHead : Game → Color → Prop
  | start (g : Game) (option : Char) :
      option = 'w' ∨ option = 'b' →
      Game.AtLoopHead (Game.start g option).1 (Game.start g option).2
  | next (g g1 : Game) (turn turn1 : Color) (input rest : List String) (cell : Cell) :
      Game.AtLoopHead g turn → g.finished = false →
      g.iteration turn input cell = some (g1, turn1, rest) →
      Game.AtLoopHead g1 turn1

/-- Row-major order of cells: row first, then column. -/
def Cell.before (c c1 : Cell) : Prop :=
  c.row < c1.row ∨ (c.row = c1.row ∧ c.col < c1.col)

instance Cell.decidableBefore : DecidableRel Cell.before := fun c c1 =>
  inferInstanceAs (Decidable (c.row < c1.row ∨ (c.row = c1.row ∧ c.col < c1.col)))

/-- The cell `k` steps away from `c` in the direction `d`. -/
def Cell.shift (c : Cell) (d : Int × Int) (k : Nat) : Cell :=
  ⟨c.row + (k : Int) * d.1, c.col + (k : Int) * d.2⟩

/-- The list `cell + 1 d, ..., cell + n d`, nearest first. -/
def ray (cell : Cell) (d : Int × Int) (n : Nat) : List Cell :=
  (List.range n).map fun k => cell.shift d (k + 1)

/-- The contribution of the direction `d` to `Board::flips`: what one execution of the loop
body appends to an empty `result`. -/
def Board.run (b : Board) (cell : Cell) (color : Color) (d : Int × Int) : List Cell :=
  b.flipsDir cell color [] d.1 d.2

/-- The cells `cell + 1 d, ..., cell + n d` are on the board and hold a color that is
neither `none` nor `color`, and `cell + (n + 1) d` is on the board and holds `color`. -/
def Board.Bracket (b : Board) (cell : Cell) (color : Color) (d : Int × Int) (n : Nat) : Prop :=
  (∀ k : Nat, 1 ≤ k → k ≤ n →
      (cell.shift d k).inSquare 0 7 = true ∧ b.get? (cell.shift d k) ≠ some Color.none ∧
        b.get? (cell.shift d k) ≠ some color) ∧
    (cell.shift d (n + 1)).inSquare 0 7 = true ∧ b.get? (cell.shift d (n + 1)) = some color

/-- The cells `cell + 1 d, ..., cell + n d` are on the board and hold a color that is
neither `none` nor `color`, and `cell + (n + 1) d` is off the board or holds `none`. -/
def Board.DeadEnd (b : Board) (cell : Cell) (color : Color) (d : Int × Int) (n : Nat) : Prop :=
  (∀ k : Nat, 1 ≤ k → k ≤ n →
      (cell.shift d k).inSquare 0 7 = true ∧ b.get? (cell.shift d k) ≠ some Color.none ∧
        b.get? (cell.shift d k) ≠ some color) ∧
    ((cell.shift d (n + 1)).inSquare 0 7 = false ∨ b.get? (cell.shift d (n + 1)) = some Color.none)

/-- The integer `x` is a value of the type `int` (32 bits). -/
def isInt32 (x : Int) : Prop :=
  -2147483648 ≤ x ∧ x ≤ 2147483647

instance isInt32.decidable (x : Int) : Decidable (isInt32 x) :=
  inferInstanceAs (Decidable (-2147483648 ≤ x ∧ x ≤ 2147483647))

/-- The opposite of a player color: black for white, white for black. -/
def Color.opposite (c : Color) : Color :=
  if c = Color.white then Color.black else if c = Color.black then Color.white else c

/-- Every cell of the grid holds `white`, `black` or `none`. -/
def Board.Standard (b : Board) : Prop :=
  ∀ (c : Cell) (v : Color), b.get? c = some v →
    v = Color.white ∨ v = Color.black ∨ v = Color.none

/-- The number of grid cells holding the color `v`. -/
def Board.count (b : Board) (v : Color) : Nat :=
  allCells.countP fun c => b.get? c == some v

/-- The count invariant: the counter of white and of black is the number of cells holding
that color, and the two counters and the number of `none` cells add up to 64. -/
def Board.CountInvariant (b : Board) : Prop :=
  b.scores Color.white = (b.count Color.white : Int) ∧
    b.scores Color.black = (b.count Color.black : Int) ∧
    b.scores Color.white + b.scores Color.black + (b.count Color.none : Int) = 64

/-- The boards reachable from `initOthello` by legal moves of white and black. -/
inductive Board.Reachable : Board → Prop
  | init (b0 : Board) : Board.Reachable (Board.initOthello b0)
  | move (b b1 : Board) (cell : Cell) (color : Color) :
      Board.Reachable b → (color = Color.white ∨ color = Color.black) →
      b.validMove cell color = some true → b.makeMove cell color = some b1 →
      Board.Reachable b1

/-- The object after `n` successive calls of a method `f`. -/
def callTimes {α : Type} (f : Board → Option (α × Board)) : Nat → Board → Option Board
  | 0, b => some b
  | n + 1, b =>
    match f b with
    | Option.none => Option.none
    | some (_, b1) => callTimes f n b1

/-- The board `b1` is reached from `b` by `n` successive legal moves of white or black. -/
inductive Board.LegalMoves : Board → Nat → Board → Prop
  | zero (b : Board) : Board.LegalMoves b 0 b
  | move (b b1 b2 : Board) (n : Nat) (cell : Cell) (color : Color) :
      Board.LegalMoves b n b1 → (color = Color.white ∨ color = Color.black) →
      b1.validMove cell color = some true → b1.makeMove cell color = some b2 →
      Board.LegalMoves b (n + 1) b2

/-- The states `(game, turn)` at the head of the loop of `Game::play` after `n`
iterations. -/
inductive Game.AfterIterations : Nat → Game → Color → Prop
  | start (g : Game) (option : Char) :
      option = 'w' ∨ option = 'b' →
      Game.AfterIterations 0 (Game.start g option).1 (Game.start g option).2
  | next (n : Nat) (g g1 : Game) (turn turn1 : Color) (input rest : List String) (cell : Cell) :
      Game.AfterIterations n g turn → g.finished = false →
      g.iteration turn input cell = some (g1, turn1, rest) →
      Game.AfterIterations (n + 1) g1 turn1

/-! ## Reading and writing the grid -/

theorem inSquare_iff (c : Cell) :
    c.inSquare 0 7 = true ↔ 0 ≤ c.row ∧ c.row < 8 ∧ 0 ≤ c.col ∧ c.col < 8 := by
  simp only [Cell.inSquare, Bool.and_eq_true, decide_eq_true_eq]
  omega

theorem get?_isSome_iff (b : Board) (c : Cell) :
    (∃ v, b.get? c = some v) ↔ c.inSquare 0 7 = true := by
  rw [inSquare_iff]
  unfold Board.get?
  by_cases h : 0 ≤ c.row ∧ c.row < 8 ∧ 0 ≤ c.col ∧ c.col < 8
  · simp [h]
  · simp [h]

theorem get?_eq_none_iff (b : Board) (c : Cell) :
    b.get? c = Option.none ↔ c.inSquare 0 7 = false := by
  rw [← Bool.not_eq_true, ← get?_isSome_iff b c]
  cases b.get? c <;> simp

theorem set?_isSome (b : Board) (c : Cell) (v : Color) (h : c.inSquare 0 7 = true) :
    ∃ b1, b.set? c v = some b1 := by
  rw [inSquare_iff] at h
  simp [Board.set?, h]

theorem set?_scores {b b1 : Board} {c : Cell} {v : Color} (h : b.set? c v = some b1) :
    b1.scores = b.scores := by
  unfold Board.set? at h
  split at h
  · cases h; rfl
  · cases h

theorem set?_inSquare {b b1 : Board} {c : Cell} {v : Color} (h : b.set? c v = some b1) :
    c.inSquare 0 7 = true := by
  unfold Board.set? at h
  split at h
  · rw [inSquare_iff]; assumption
  · cases h

theorem get?_set? {b b1 : Board} {c : Cell} {v : Color} (h : b.set? c v = some b1) (c1 : Cell) :
    b1.get? c1 = if c1 = c then some v else b.get? c1 := by
  unfold Board.set? at h
  split at h
  next hc =>
    cases h
    unfold Board.get?
    by_cases h1 : 0 ≤ c1.row ∧ c1.row < 8 ∧ 0 ≤ c1.col ∧ c1.col < 8
    · have key : (((c1.row.toNat : Nat) : Int) = c.row ∧ ((c1.col.toNat : Nat) : Int) = c.col)
          ↔ c1 = c := by
        rw [Int.toNat_of_nonneg h1.1, Int.toNat_of_nonneg h1.2.2.1]
        constructor
        · intro hh; cases c1; cases c; simp_all
        · intro hh; subst hh; exact ⟨rfl, rfl⟩
      rw [dif_pos h1, dif_pos h1]
      by_cases e : c1 = c
      · rw [if_pos e]
        exact congrArg some (if_pos (key.mpr e))
      · rw [if_neg e]
        exact congrArg some (if_neg (mt key.mp e))
    · have e : c1 ≠ c := by
        intro e; subst e; exact h1 hc
      rw [dif_neg h1, dif_neg h1, if_neg e]
  next => cases h

/-! ## The walk of `Board::flips` -/

theorem shift_zero (c : Cell) (d : Int × Int) : c.shift d 0 = c := by
  simp [Cell.shift]

theorem shift_succ (c : Cell) (d : Int × Int) (k : Nat) :
    (⟨c.row + d.1, c.col + d.2⟩ : Cell).shift d k = c.shift d (k + 1) := by
  simp only [Cell.shift, Cell.mk.injEq]
  push_cast
  constructor <;> ring

theorem loopCond_iff (b : Board) (color : Color) (c : Cell) :
    b.loopCond color c = true ↔
      c.inSquare 0 7 = true ∧ b.get? c ≠ some Color.none ∧ b.get? c ≠ some color := by
  simp [Board.loopCond, Board.size, and_assoc]

/-- The loop stops at the first cell that fails its condition, having remembered the cells
before it, or when its bound is used up. -/
theorem walk_spec (b : Board) (color : Color) (d : Int × Int) :
    ∀ (n : Nat) (cur : Cell) (tmp : List Cell),
      ∃ j, j ≤ n ∧
        b.walk color d.1 d.2 n cur tmp
          = (cur.shift d j, tmp ++ (List.range j).map (fun i => cur.shift d i)) ∧
        (∀ i, i < j → b.loopCond color (cur.shift d i) = true) ∧
        (j < n → b.loopCond color (cur.shift d j) = false)
  | 0, cur, tmp =>
    ⟨0, le_refl _, by simp [Board.walk, shift_zero], by intro i hi; omega, by intro h; omega⟩
  | n + 1, cur, tmp => by
    by_cases hc : b.loopCond color cur = true
    · obtain ⟨j, hj, hw, hall, hstop⟩ :=
        walk_spec b color d n ⟨cur.row + d.1, cur.col + d.2⟩ (tmp ++ [cur])
      refine ⟨j + 1, by omega, ?_, ?_, ?_⟩
      · rw [Board.walk, if_pos hc, hw, shift_succ]
        have e : (List.range (j + 1)).map (fun i => cur.shift d i)
            = cur :: (List.range j).map
                (fun i => (⟨cur.row + d.1, cur.col + d.2⟩ : Cell).shift d i) := by
          rw [List.range_succ_eq_map, List.map_cons, List.map_map, shift_zero]
          congr 1
          apply List.map_congr_left
          intro i _
          exact (shift_succ cur d i).symm
        rw [e, List.append_assoc]
        rfl
      · intro i hi
        cases i with
        | zero => rw [shift_zero]; exact hc
        | succ i => rw [← shift_succ]; exact hall i (by omega)
      · intro h
        rw [← shift_succ]
        exact hstop (by omega)
    · refine ⟨0, by omega, ?_, ?_, ?_⟩
      · rw [Board.walk, if_neg hc]
        simp [shift_zero]
      · intro i hi; omega
      · intro _
        rw [shift_zero]
        simpa using hc

theorem mem_directions {d : Int × Int} (h : d ∈ directions) :
    (d.1 = -1 ∨ d.1 = 0 ∨ d.1 = 1) ∧ (d.2 = -1 ∨ d.2 = 0 ∨ d.2 = 1) ∧ (d.1 ≠ 0 ∨ d.2 ≠ 0) := by
  have e : directions = [(-1,-1),(-1,0),(-1,1),(0,-1),(0,1),(1,-1),(1,0),(1,1)] := by decide
  rw [e] at h
  simp only [List.mem_cons, List.mem_singleton, List.not_mem_nil, or_false] at h
  rcases h with h | h | h | h | h | h | h | h <;> subst h <;> simp

/-- Eight executions of the loop body are never exceeded: the `while` loop of `flips` has
ended by its own condition, at the cell `cell + (j + 1) d`, after remembering the `j` cells
before it. -/
theorem walk_stops (b : Board) (cell : Cell) (color : Color) {d : Int × Int}
    (hd : d ∈ directions) :
    ∃ j, j ≤ 8 ∧
      b.walk color d.1 d.2 8 ⟨cell.row + d.1, cell.col + d.2⟩ [] = (cell.shift d (j + 1), ray cell d j) ∧
      (∀ k, 1 ≤ k → k ≤ j → b.loopCond color (cell.shift d k) = true) ∧
      b.loopCond color (cell.shift d (j + 1)) = false := by
  obtain ⟨j, hj, hw, hall, hstop⟩ :=
    walk_spec b color d 8 ⟨cell.row + d.1, cell.col + d.2⟩ []
  refine ⟨j, hj, ?_, ?_, ?_⟩
  · rw [hw, shift_succ, List.nil_append]
    congr 1
    apply List.map_congr_left
    intro i _
    exact shift_succ cell d i
  · intro k hk1 hk2
    obtain ⟨i, rfl⟩ : ∃ i, k = i + 1 := ⟨k - 1, by omega⟩
    rw [← shift_succ]
    exact hall i (by omega)
  · rw [← shift_succ]
    by_cases hlt : j < 8
    · exact hstop hlt
    · have hj8 : j = 8 := by omega
      subst hj8
      have h0 := (loopCond_iff b color _).1 (hall 0 (by omega))
      rw [shift_zero] at h0
      have hin := (inSquare_iff _).1 h0.1
      simp only at hin
      cases hc : b.loopCond color ((⟨cell.row + d.1, cell.col + d.2⟩ : Cell).shift d 8) with
      | false => rfl
      | true =>
        have h8 := (inSquare_iff _).1 ((loopCond_iff b color _).1 hc).1
        simp only [Cell.shift] at h8
        obtain ⟨hx, hy, hne⟩ := mem_directions hd
        rcases hx with hx | hx | hx <;> rcases hy with hy | hy | hy <;>
          rw [hx, hy] at h8 hin <;> simp [hx, hy] at hne <;> omega

theorem flipsDir_eq (b : Board) (cell : Cell) (color : Color) (result : List Cell)
    (x y : Int) :
    b.flipsDir cell color result x y = result ++ b.run cell color (x, y) := by
  unfold Board.run Board.flipsDir
  simp only []
  split <;> simp

theorem flips_eq_runs (b : Board) (cell : Cell) (color : Color) :
    b.flips cell color
      = ([(-1,-1),(-1,0),(-1,1),(0,-1),(0,1),(1,-1),(1,0),(1,1)].map (b.run cell color)).flatten := by
  have e : directions = [(-1,-1),(-1,0),(-1,1),(0,-1),(0,1),(1,-1),(1,0),(1,1)] := by decide
  unfold Board.flips
  rw [e]
  simp only [List.foldl_cons, List.foldl_nil, List.map_cons, List.map_nil, List.flatten_cons,
    List.flatten_nil, List.append_nil]
  simp only [flipsDir_eq, List.nil_append, List.append_assoc]

/-- The contribution of a direction, by the cell the walk ends at. -/
theorem run_spec (b : Board) (cell : Cell) (color : Color) {d : Int × Int}
    (hd : d ∈ directions) :
    ∃ j, j ≤ 8 ∧
      (∀ k, 1 ≤ k → k ≤ j → b.loopCond color (cell.shift d k) = true) ∧
      b.loopCond color (cell.shift d (j + 1)) = false ∧
      b.run cell color d
        = if (cell.shift d (j + 1)).inSquare 0 7 = true ∧ b.get? (cell.shift d (j + 1)) = some color
          then ray cell d j else [] := by
  obtain ⟨j, hj, hw, hall, hstop⟩ := walk_stops b cell color hd
  refine ⟨j, hj, hall, hstop, ?_⟩
  unfold Board.run Board.flipsDir
  simp only [hw, Board.size, List.nil_append]
  by_cases h : (cell.shift d (j + 1)).inSquare 0 7 = true ∧ b.get? (cell.shift d (j + 1)) = some color
  · rw [if_pos h]
    simp [h.1, h.2]
  · rw [if_neg h]
    have : ((cell.shift d (j + 1)).inSquare 0 (8 - 1) && (b.get? (cell.shift d (j + 1)) == some color))
        = false := by
      rw [Bool.eq_false_iff]
      intro hh
      apply h
      simpa using hh
    rw [this]
    simp

/-- The length of the walk is fixed by where its condition first fails. -/
theorem walk_length_unique (b : Board) (cell : Cell) (color : Color) (d : Int × Int) {j n : Nat}
    (hj : ∀ k, 1 ≤ k → k ≤ j → b.loopCond color (cell.shift d k) = true)
    (hjs : b.loopCond color (cell.shift d (j + 1)) = false)
    (hn : ∀ k, 1 ≤ k → k ≤ n → b.loopCond color (cell.shift d k) = true)
    (hns : b.loopCond color (cell.shift d (n + 1)) = false) : j = n := by
  rcases Nat.lt_trichotomy j n with h | h | h
  · have := hn (j + 1) (by omega) (by omega)
    rw [hjs] at this
    cases this
  · exact h
  · have := hj (n + 1) (by omega) (by omega)
    rw [hns] at this
    cases this

theorem run_of_bracket (b : Board) (cell : Cell) (color : Color) {d : Int × Int}
    (hd : d ∈ directions) {n : Nat} (h : b.Bracket cell color d n) :
    b.run cell color d = ray cell d n := by
  obtain ⟨j, _, hall, hstop, hrun⟩ := run_spec b cell color hd
  have hn : ∀ k, 1 ≤ k → k ≤ n → b.loopCond color (cell.shift d k) = true := fun k h1 h2 =>
    (loopCond_iff b color _).2 (h.1 k h1 h2)
  have hns : b.loopCond color (cell.shift d (n + 1)) = false := by
    rw [Bool.eq_false_iff]
    intro hh
    exact ((loopCond_iff b color _).1 hh).2.2 h.2.2
  have e := walk_length_unique b cell color d hall hstop hn hns
  subst e
  rw [hrun, if_pos h.2]

theorem run_ne_nil (b : Board) (cell : Cell) (color : Color) {d : Int × Int}
    (hd : d ∈ directions) (h : b.run cell color d ≠ []) :
    ∃ n, b.Bracket cell color d n := by
  obtain ⟨j, _, hall, _, hrun⟩ := run_spec b cell color hd
  by_cases hc : (cell.shift d (j + 1)).inSquare 0 7 = true ∧ b.get? (cell.shift d (j + 1)) = some color
  · exact ⟨j, fun k h1 h2 => (loopCond_iff b color _).1 (hall k h1 h2), hc⟩
  · rw [hrun, if_neg hc] at h
    exact absurd rfl h

theorem run_of_deadEnd (b : Board) (cell : Cell) (color : Color) (hcolor : color ≠ Color.none)
    {d : Int × Int} (hd : d ∈ directions) {n : Nat} (h : b.DeadEnd cell color d n) :
    b.run cell color d = [] := by
  obtain ⟨j, _, hall, hstop, hrun⟩ := run_spec b cell color hd
  have hn : ∀ k, 1 ≤ k → k ≤ n → b.loopCond color (cell.shift d k) = true := fun k h1 h2 =>
    (loopCond_iff b color _).2 (h.1 k h1 h2)
  have hns : b.loopCond color (cell.shift d (n + 1)) = false := by
    rw [Bool.eq_false_iff]
    intro hh
    have := (loopCond_iff b color _).1 hh
    rcases h.2 with h2 | h2
    · rw [this.1] at h2; cases h2
    · exact this.2.1 h2
  have e := walk_length_unique b cell color d hall hstop hn hns
  subst e
  rw [hrun, if_neg]
  rintro ⟨h1, h2⟩
  rcases h.2 with h3 | h3
  · rw [h1] at h3; cases h3
  · rw [h2] at h3
    exact hcolor (Option.some.inj h3)

theorem mem_ray {cell c : Cell} {d : Int × Int} {n : Nat} (h : c ∈ ray cell d n) :
    ∃ k, 1 ≤ k ∧ k ≤ n ∧ c = cell.shift d k := by
  unfold ray at h
  rw [List.mem_map] at h
  obtain ⟨i, hi, rfl⟩ := h
  rw [List.mem_range] at hi
  exact ⟨i + 1, by omega, by omega, rfl⟩

theorem mem_run {b : Board} {cell c : Cell} {color : Color} {d : Int × Int}
    (hd : d ∈ directions) (h : c ∈ b.run cell color d) :
    ∃ k, 1 ≤ k ∧ k ≤ 8 ∧ c = cell.shift d k ∧ b.loopCond color c = true := by
  obtain ⟨j, hj, hall, _, hrun⟩ := run_spec b cell color hd
  rw [hrun] at h
  split at h
  · obtain ⟨k, h1, h2, rfl⟩ := mem_ray h
    exact ⟨k, h1, by omega, rfl, hall k h1 h2⟩
  · cases h

theorem mem_flips {b : Board} {cell c : Cell} {color : Color} (h : c ∈ b.flips cell color) :
    ∃ d ∈ directions, ∃ k, 1 ≤ k ∧ k ≤ 8 ∧ c = cell.shift d k ∧ b.loopCond color c = true := by
  have e : directions = [(-1,-1),(-1,0),(-1,1),(0,-1),(0,1),(1,-1),(1,0),(1,1)] := by decide
  rw [flips_eq_runs, ← e, List.mem_flatten] at h
  obtain ⟨l, hl, hc⟩ := h
  rw [List.mem_map] at hl
  obtain ⟨d, hd, rfl⟩ := hl
  exact ⟨d, hd, mem_run hd hc⟩

/-- A flipped cell is on the board and holds a color that is neither `none` nor `color`. -/
theorem flips_opposing {b : Board} {cell c : Cell} {color : Color}
    (h : c ∈ b.flips cell color) :
    c.inSquare 0 7 = true ∧ b.get? c ≠ some Color.none ∧ b.get? c ≠ some color := by
  obtain ⟨d, _, k, _, _, _, hc⟩ := mem_flips h
  exact (loopCond_iff b color c).1 hc

/-! ## `Board::makeMove` -/

theorem flipAll_spec (color : Color) :
    ∀ (cells : List Cell) (b : Board), (∀ c ∈ cells, c.inSquare 0 7 = true) →
      ∃ b1, Board.flipAll color b cells = some b1 ∧ b1.scores = b.scores ∧
        ∀ c, b1.get? c = if c ∈ cells then some color else b.get? c
  | [], b, _ => ⟨b, rfl, rfl, by intro c; simp⟩
  | c0 :: rest, b, h => by
    obtain ⟨b0, hb0⟩ := set?_isSome b c0 color (h c0 (List.mem_cons_self _ _))
    obtain ⟨b1, hb1, hs, hg⟩ :=
      flipAll_spec color rest b0 (fun c hc => h c (List.mem_cons_of_mem _ hc))
    refine ⟨b1, ?_, ?_, ?_⟩
    · rw [Board.flipAll, hb0]
      exact hb1
    · rw [hs, set?_scores hb0]
    · intro c
      rw [hg c, get?_set? hb0 c]
      by_cases h1 : c ∈ rest
      · simp [h1]
      · by_cases h2 : c = c0
        · simp [h2]
        · simp [h1, h2]

/-- A move with a non-empty flip list on an on-board cell is carried out: the counters of
`color` and of the color `k` of the first flipped cell are updated, the cell and the
flipped cells are set to `color`, every other cell is kept. -/
theorem makeMove_spec (b : Board) (cell : Cell) (color : Color)
    (hcell : cell.inSquare 0 7 = true) (hne : b.flips cell color ≠ []) :
    ∃ b1 c0 k, b.makeMove cell color = some b1 ∧
      (b.flips cell color).head? = some c0 ∧ b.get? c0 = some k ∧
      b1.scores = setScore
          (setScore b.scores color (toInt32 (b.scores color + (1 + ((b.flips cell color).length : Int))))) k
          (toInt32 (setScore b.scores color
              (toInt32 (b.scores color + (1 + ((b.flips cell color).length : Int)))) k
            - ((b.flips cell color).length : Int))) ∧
      ∀ c, b1.get? c = if c = cell ∨ c ∈ b.flips cell color then some color else b.get? c := by
  have hin : ∀ c ∈ b.flips cell color, c.inSquare 0 7 = true := fun c hc => (flips_opposing hc).1
  unfold Board.makeMove
  generalize hfl : b.flips cell color = cells at hne hin
  cases cells with
  | nil => exact absurd rfl hne
  | cons c0 rest =>
    obtain ⟨k, hk⟩ := (get?_isSome_iff b c0).2 (hin c0 (List.mem_cons_self _ _))
    obtain ⟨b0, hb0⟩ := set?_isSome
      (Board.mk b.board (setScore
          (setScore b.scores color (toInt32 (b.scores color + (1 + ((c0 :: rest).length : Int))))) k
          (toInt32 (setScore b.scores color
              (toInt32 (b.scores color + (1 + ((c0 :: rest).length : Int)))) k
            - ((c0 :: rest).length : Int))))) cell color hcell
    obtain ⟨b1, hb1, hs, hg⟩ := flipAll_spec color (c0 :: rest) b0 hin
    refine ⟨b1, c0, k, ?_, rfl, hk, ?_, ?_⟩
    · simp only [hk, hb0]
      exact hb1
    · rw [hs, set?_scores hb0]
    · intro c
      rw [hg c, get?_set? hb0 c]
      have : Board.get? (Board.mk b.board (setScore
          (setScore b.scores color (toInt32 (b.scores color + (1 + ((c0 :: rest).length : Int))))) k
          (toInt32 (setScore b.scores color
              (toInt32 (b.scores color + (1 + ((c0 :: rest).length : Int)))) k
            - ((c0 :: rest).length : Int))))) c = b.get? c := rfl
      rw [this]
      by_cases h1 : c ∈ c0 :: rest
      · simp [h1]
      · by_cases h2 : c = cell
        · simp [h2]
        · simp [h1, h2]

theorem validMove_eq (b : Board) (cell : Cell) (color : Color)
    (hcell : cell.inSquare 0 7 = true) :
    b.validMove cell color
      = some (decide (b.get? cell = some Color.none ∧ 0 < b.countFlips cell color)) := by
  obtain ⟨v, hv⟩ := (get?_isSome_iff b cell).2 hcell
  unfold Board.validMove
  rw [hv]
  have hnn : 0 ≤ b.countFlips cell color := by
    unfold Board.countFlips; exact Int.natCast_nonneg _
  by_cases h1 : v = Color.none
  · by_cases h2 : b.countFlips cell color = 0
    · simp [h1, h2]
    · have : 0 < b.countFlips cell color := by omega
      simp [h1, h2, this]
  · simp [h1]

theorem validMove_true_iff (b : Board) (cell : Cell) (color : Color) :
    b.validMove cell color = some true ↔
      b.get? cell = some Color.none ∧ b.flips cell color ≠ [] := by
  constructor
  · intro h
    have hcell : cell.inSquare 0 7 = true := by
      rw [← get?_isSome_iff b cell]
      unfold Board.validMove at h
      cases hg : b.get? cell with
      | none => rw [hg] at h; cases h
      | some v => exact ⟨v, rfl⟩
    rw [validMove_eq b cell color hcell] at h
    have h2 := of_decide_eq_true (Option.some.inj h)
    refine ⟨h2.1, ?_⟩
    intro hnil
    have := h2.2
    unfold Board.countFlips at this
    rw [hnil] at this
    simp at this
  · rintro ⟨h1, h2⟩
    have hcell : cell.inSquare 0 7 = true := (get?_isSome_iff b cell).1 ⟨_, h1⟩
    rw [validMove_eq b cell color hcell]
    have : 0 < b.countFlips cell color := by
      unfold Board.countFlips
      have := List.length_pos.2 h2
      omega
    simp [h1, this]

/-! ## Geometry of the flip list -/

theorem shift_inj_aux {x y x1 y1 : Int} {k k1 : Nat}
    (hx : x = -1 ∨ x = 0 ∨ x = 1) (hy : y = -1 ∨ y = 0 ∨ y = 1)
    (hx1 : x1 = -1 ∨ x1 = 0 ∨ x1 = 1) (hy1 : y1 = -1 ∨ y1 = 0 ∨ y1 = 1)
    (hk : 1 ≤ k) (hk1 : 1 ≤ k1)
    (e1 : (k : Int) * x = (k1 : Int) * x1) (e2 : (k : Int) * y = (k1 : Int) * y1) :
    x = x1 ∧ y = y1 ∧ (x ≠ 0 ∨ y ≠ 0 → k = k1) := by
  rcases hx with rfl | rfl | rfl <;> rcases hy with rfl | rfl | rfl <;>
    rcases hx1 with rfl | rfl | rfl <;> rcases hy1 with rfl | rfl | rfl <;> omega

/-- Distinct (direction, distance) pairs lead to distinct cells. -/
theorem shift_inj {cell : Cell} {d d1 : Int × Int} {k k1 : Nat}
    (hd : d ∈ directions) (hd1 : d1 ∈ directions) (hk : 1 ≤ k) (hk1 : 1 ≤ k1)
    (h : cell.shift d k = cell.shift d1 k1) : d = d1 ∧ k = k1 := by
  obtain ⟨hx, hy, hne⟩ := mem_directions hd
  obtain ⟨hx1, hy1, _⟩ := mem_directions hd1
  simp only [Cell.shift, Cell.mk.injEq] at h
  have := shift_inj_aux hx hy hx1 hy1 hk hk1 (by omega) (by omega)
  exact ⟨Prod.ext this.1 this.2.1, this.2.2 hne⟩

theorem shift_ne_self {cell : Cell} {d : Int × Int} {k : Nat}
    (hd : d ∈ directions) (hk : 1 ≤ k) : cell.shift d k ≠ cell := by
  obtain ⟨hx, hy, hne⟩ := mem_directions hd
  intro h
  have h1 : cell.row + (k : Int) * d.1 = cell.row := congrArg Cell.row h
  have h2 : cell.col + (k : Int) * d.2 = cell.col := congrArg Cell.col h
  rcases hx with hx | hx | hx <;> rcases hy with hy | hy | hy <;>
    rw [hx] at h1 <;> rw [hy] at h2 <;> simp [hx, hy] at hne <;> omega

theorem ray_nodup (cell : Cell) {d : Int × Int} (hd : d ∈ directions) (n : Nat) :
    (ray cell d n).Nodup := by
  unfold ray
  apply List.Nodup.map_on _ (List.nodup_range n)
  intro i _ j _ h
  have := (shift_inj hd hd (by omega) (by omega) h).2
  omega

theorem run_nodup (b : Board) (cell : Cell) (color : Color) {d : Int × Int}
    (hd : d ∈ directions) : (b.run cell color d).Nodup := by
  obtain ⟨j, _, _, _, hrun⟩ := run_spec b cell color hd
  rw [hrun]
  split
  · exact ray_nodup cell hd j
  · exact List.nodup_nil

theorem runs_nodup (b : Board) (cell : Cell) (color : Color) :
    ∀ ds : List (Int × Int), ds.Nodup → (∀ d ∈ ds, d ∈ directions) →
      ((ds.map (b.run cell color)).flatten).Nodup
  | [], _, _ => List.nodup_nil
  | d :: rest, hnd, hsub => by
    rw [List.map_cons, List.flatten_cons, List.nodup_append]
    have hd := hsub d (List.mem_cons_self _ _)
    refine ⟨run_nodup b cell color hd,
      runs_nodup b cell color rest (List.nodup_cons.1 hnd).2
        (fun e he => hsub e (List.mem_cons_of_mem _ he)), ?_⟩
    intro c hc1 hc2
    rw [List.mem_flatten] at hc2
    obtain ⟨l, hl, hcl⟩ := hc2
    rw [List.mem_map] at hl
    obtain ⟨e, he, rfl⟩ := hl
    have hed := hsub e (List.mem_cons_of_mem _ he)
    obtain ⟨k, hk, _, hck, _⟩ := mem_run hd hc1
    obtain ⟨k1, hk1, _, hck1, _⟩ := mem_run hed hcl
    have := (shift_inj hd hed hk hk1 (hck.symm.trans hck1)).1
    subst this
    exact (List.nodup_cons.1 hnd).1 he

/-- The flip list holds no cell twice. -/
theorem flips_nodup (b : Board) (cell : Cell) (color : Color) : (b.flips cell color).Nodup := by
  have e : directions = [(-1,-1),(-1,0),(-1,1),(0,-1),(0,1),(1,-1),(1,0),(1,1)] := by decide
  rw [flips_eq_runs, ← e]
  exact runs_nodup b cell color directions (by rw [e]; decide) (fun d hd => hd)

/-- The flip list does not hold the cell the piece is placed on. -/
theorem cell_not_mem_flips (b : Board) (cell : Cell) (color : Color) :
    cell ∉ b.flips cell color := by
  intro h
  obtain ⟨d, hd, k, hk, _, hc, _⟩ := mem_flips h
  exact shift_ne_self hd hk hc.symm

theorem opposite_of_standard {color k : Color}
    (hcolor : color = Color.white ∨ color = Color.black)
    (hk : k = Color.white ∨ k = Color.black ∨ k = Color.none)
    (h1 : k ≠ Color.none) (h2 : k ≠ color) : k = color.opposite := by
  rcases hcolor with h | h <;> rcases hk with h3 | h3 | h3 <;> subst h <;> subst h3 <;>
    first | rfl | exact absurd rfl h1 | exact absurd rfl h2

theorem opposite_ne {color : Color} (hcolor : color = Color.white ∨ color = Color.black) :
    color.opposite ≠ color := by
  rcases hcolor with h | h <;> subst h <;> decide

/-! ## Counting cells -/

theorem mem_allCells (c : Cell) : c ∈ allCells ↔ c.inSquare 0 7 = true := by
  rw [inSquare_iff]
  unfold allCells
  simp only [List.mem_flatMap, List.mem_map, List.mem_range]
  constructor
  · rintro ⟨i, hi, j, hj, rfl⟩
    show (0 : Int) ≤ (i : Int) ∧ (i : Int) < 8 ∧ (0 : Int) ≤ (j : Int) ∧ (j : Int) < 8
    omega
  · intro h
    refine ⟨c.row.toNat, by omega, c.col.toNat, by omega, ?_⟩
    cases c
    simp only [Cell.mk.injEq]
    exact ⟨Int.toNat_of_nonneg h.1, Int.toNat_of_nonneg h.2.2.1⟩

theorem allCells_nodup : allCells.Nodup := by decide

theorem allCells_length : allCells.length = 64 := by decide

theorem white_ne_black : Color.white ≠ Color.black := by decide

theorem white_ne_none : Color.white ≠ Color.none := by decide

theorem black_ne_none : Color.black ≠ Color.none := by decide

theorem countP_split {α : Type} (p q r : α → Bool) :
    ∀ l : List α, (∀ x ∈ l, p x = true ↔ (q x = true ∨ r x = true)) →
      (∀ x ∈ l, ¬ (q x = true ∧ r x = true)) →
      l.countP p = l.countP q + l.countP r
  | [], _, _ => rfl
  | a :: l, h1, h2 => by
    have ih := countP_split p q r l (fun x hx => h1 x (List.mem_cons_of_mem _ hx))
      (fun x hx => h2 x (List.mem_cons_of_mem _ hx))
    have ha1 := h1 a (List.mem_cons_self _ _)
    have ha2 := h2 a (List.mem_cons_self _ _)
    rw [List.countP_cons, List.countP_cons, List.countP_cons, ih]
    cases hp : p a <;> cases hq : q a <;> cases hr : r a <;> simp_all <;> omega

theorem countP_mem_eq_length {α : Type} [DecidableEq α] {l s : List α} (hl : l.Nodup)
    (hs : s.Nodup) (hsub : ∀ x ∈ s, x ∈ l) :
    l.countP (fun x => decide (x ∈ s)) = s.length := by
  rw [List.countP_eq_length_filter]
  apply List.Perm.length_eq
  rw [List.perm_ext_iff_of_nodup (hl.filter _) hs]
  intro a
  simp only [List.mem_filter, decide_eq_true_eq]
  exact ⟨fun h => h.2, fun h => ⟨hsub a h, h⟩⟩

/-- The cells holding white, black, `none` and any other color make up the 64 cells. -/
theorem count_partition (b : Board) :
    ∀ l : List Cell,
      l.countP (fun c => b.get? c == some Color.white)
        + l.countP (fun c => b.get? c == some Color.black)
        + l.countP (fun c => b.get? c == some Color.none)
        + l.countP (fun c => !(b.get? c == some Color.white || b.get? c == some Color.black
            || b.get? c == some Color.none)) = l.length
  | [] => rfl
  | a :: l => by
    have ih := count_partition b l
    simp only [List.countP_cons, List.length_cons]
    by_cases hW : b.get? a = some Color.white
    · simp [hW, white_ne_black, white_ne_none] at ih ⊢
      omega
    · by_cases hB : b.get? a = some Color.black
      · simp [hB, white_ne_black.symm, black_ne_none] at ih ⊢
        omega
      · by_cases hN : b.get? a = some Color.none
        · simp [hN, white_ne_none.symm, black_ne_none.symm] at ih ⊢
          omega
        · simp [hW, hB, hN] at ih ⊢
          omega

/-- When white, black and `none` cells add up to 64, no cell holds another color. -/
theorem standard_of_counts (b : Board)
    (h : b.count Color.white + b.count Color.black + b.count Color.none = 64) : b.Standard := by
  have hp := count_partition b allCells
  rw [allCells_length] at hp
  unfold Board.count at h
  have h0 : allCells.countP (fun c => !(b.get? c == some Color.white
      || b.get? c == some Color.black || b.get? c == some Color.none)) = 0 := by omega
  rw [List.countP_eq_zero] at h0
  intro c v hv
  have hc : c ∈ allCells := (mem_allCells c).2 ((get?_isSome_iff b c).1 ⟨v, hv⟩)
  have := h0 c hc
  rw [hv] at this
  by_cases hW : v = Color.white
  · exact Or.inl hW
  · by_cases hB : v = Color.black
    · exact Or.inr (Or.inl hB)
    · by_cases hN : v = Color.none
      · exact Or.inr (Or.inr hN)
      · exfalso
        apply this
        simp [hW, hB, hN]

/-- Counting after a move: the cells of a color other than the placed one are the old
ones less those among the placed cell and the flipped cells. -/
theorem count_after_other {b b1 : Board} {cell : Cell} {color v : Color} {S T : List Cell}
    (hg : ∀ c, b1.get? c = if c = cell ∨ c ∈ S then some color else b.get? c)
    (hv : v ≠ color) (hT : T.Nodup)
    (hTS : ∀ c, c ∈ T ↔ ((c = cell ∨ c ∈ S) ∧ b.get? c = some v)) :
    b.count v = b1.count v + T.length := by
  have hsub : ∀ c ∈ T, c ∈ allCells := fun c hc =>
    (mem_allCells c).2 ((get?_isSome_iff b c).1 ⟨v, ((hTS c).1 hc).2⟩)
  rw [← countP_mem_eq_length allCells_nodup hT hsub]
  unfold Board.count
  apply countP_split
  · intro c _
    rw [hg c]
    by_cases h : c = cell ∨ c ∈ S
    · rw [if_pos h]
      have h3 : (some color == some v) = false := by simp [Ne.symm hv]
      rw [h3]
      simp only [beq_iff_eq, decide_eq_true_eq, hTS c]
      simp [h]
    · rw [if_neg h]
      simp only [beq_iff_eq, decide_eq_true_eq, hTS c]
      simp [h]
  · intro c _
    rw [hg c]
    simp only [beq_iff_eq, decide_eq_true_eq, hTS c]
    rintro ⟨h1, h2, _⟩
    rw [if_pos h2] at h1
    exact hv (Option.some.inj h1).symm

/-- Counting after a move: the cells of the placed color are the old ones, the placed cell
and the flipped cells. -/
theorem count_after_color {b b1 : Board} {cell : Cell} {color : Color} {S : List Cell}
    (hg : ∀ c, b1.get? c = if c = cell ∨ c ∈ S then some color else b.get? c)
    (hS : (cell :: S).Nodup) (hin : ∀ c ∈ cell :: S, c.inSquare 0 7 = true)
    (hold : ∀ c ∈ cell :: S, b.get? c ≠ some color) :
    b1.count color = b.count color + (S.length + 1) := by
  have hsub : ∀ c ∈ cell :: S, c ∈ allCells := fun c hc => (mem_allCells c).2 (hin c hc)
  have hlen := countP_mem_eq_length allCells_nodup hS hsub
  rw [List.length_cons] at hlen
  rw [← hlen]
  unfold Board.count
  apply countP_split
  · intro c _
    rw [hg c]
    simp only [beq_iff_eq, decide_eq_true_eq, List.mem_cons]
    by_cases h : c = cell ∨ c ∈ S
    · simp [h]
    · simp [h]
  · intro c _
    simp only [beq_iff_eq, decide_eq_true_eq]
    rintro ⟨h1, h2⟩
    exact hold c h2 h1

/-- The three counts after a legal move of white or black on a grid of white, black and
`none`. -/
theorem counts_after_move {b b1 : Board} {cell : Cell} {color : Color} (hstd : b.Standard)
    (hcolor : color = Color.white ∨ color = Color.black)
    (hvalid : b.validMove cell color = some true)
    (hg : ∀ c, b1.get? c = if c = cell ∨ c ∈ b.flips cell color then some color else b.get? c) :
    b1.count color = b.count color + ((b.flips cell color).length + 1) ∧
      b.count color.opposite = b1.count color.opposite + (b.flips cell color).length ∧
      b.count Color.none = b1.count Color.none + 1 := by
  obtain ⟨hempty, _⟩ := (validMove_true_iff b cell color).1 hvalid
  have hcell : cell.inSquare 0 7 = true := (get?_isSome_iff b cell).1 ⟨_, hempty⟩
  have hcn : color ≠ Color.none := by
    rcases hcolor with h | h <;> rw [h] <;> decide
  have hon : color.opposite ≠ Color.none := by
    rcases hcolor with h | h <;> rw [h] <;> decide
  have hnd : (cell :: b.flips cell color).Nodup :=
    List.nodup_cons.2 ⟨cell_not_mem_flips b cell color, flips_nodup b cell color⟩
  refine ⟨?_, ?_, ?_⟩
  · apply count_after_color hg hnd
    · intro c hc
      rcases List.mem_cons.1 hc with h | h
      · rw [h]; exact hcell
      · exact (flips_opposing h).1
    · intro c hc
      rcases List.mem_cons.1 hc with h | h
      · rw [h, hempty]
        exact fun e => hcn (Option.some.inj e).symm
      · exact (flips_opposing h).2.2
  · apply count_after_other hg (opposite_ne hcolor) (flips_nodup b cell color)
    intro c
    constructor
    · intro hc
      refine ⟨Or.inr hc, ?_⟩
      have ho := flips_opposing hc
      obtain ⟨k, hk⟩ := (get?_isSome_iff b c).2 ho.1
      rw [hk] at ho ⊢
      rw [opposite_of_standard hcolor (hstd c k hk) (fun e => ho.2.1 (congrArg some e))
        (fun e => ho.2.2 (congrArg some e))]
    · rintro ⟨h1 | h1, h2⟩
      · rw [h1, hempty] at h2
        exact absurd (Option.some.inj h2).symm hon
      · exact h1
  · have := count_after_other (T := [cell]) hg (Ne.symm hcn) (List.nodup_singleton cell)
      (by
        intro c
        rw [List.mem_singleton]
        constructor
        · intro h
          rw [h]
          exact ⟨Or.inl rfl, hempty⟩
        · rintro ⟨h1 | h1, h2⟩
          · exact h1
          · exact absurd h2 (flips_opposing h1).2.1)
    simpa using this

/-! ## Properties of the specification -/

/-- C1: `Board::flips (cell, color)` is the concatenation, over the 8 directions in the
order (-1,-1), (-1,0), (-1,1), (0,-1), (0,1), (1,-1), (1,0), (1,1), of the run of each
direction.  The run of `d` is `cell + 1 d, ..., cell + n d` when these `n` cells are on the
board and hold a color that is neither `none` nor `color` and `cell + (n + 1) d` is on the
board and holds `color`; it is empty when there is no such `n`, in particular when the walk
leaves the board or meets `none` first.  `countFlips` is the length of the list. -/
theorem flips_is_concatenation_of_runs (b : Board) (cell : Cell) (color : Color)
    (_hcell : cell.inSquare 0 7 = true)
    (hcolor : color = Color.white ∨ color = Color.black) :
    b.flips cell color
        = ([(-1,-1),(-1,0),(-1,1),(0,-1),(0,1),(1,-1),(1,0),(1,1)].map
            (b.run cell color)).flatten ∧
      (∀ d ∈ [((-1,-1) : Int × Int),(-1,0),(-1,1),(0,-1),(0,1),(1,-1),(1,0),(1,1)],
        (∀ n, b.Bracket cell color d n → b.run cell color d = ray cell d n) ∧
        ((¬ ∃ n, b.Bracket cell color d n) → b.run cell color d = []) ∧
        (∀ n, b.DeadEnd cell color d n → b.run cell color d = [])) ∧
      b.countFlips cell color = ((b.flips cell color).length : Int) := by
  have e : directions = [(-1,-1),(-1,0),(-1,1),(0,-1),(0,1),(1,-1),(1,0),(1,1)] := by decide
  have hne : color ≠ Color.none := by
    rcases hcolor with h | h <;> rw [h] <;> decide
  refine ⟨flips_eq_runs b cell color, ?_, rfl⟩
  intro d hd
  rw [← e] at hd
  refine ⟨fun n h => run_of_bracket b cell color hd h, ?_, fun n h =>
    run_of_deadEnd b cell color hne hd h⟩
  intro hno
  by_contra hrun
  exact hno (run_ne_nil b cell color hd hrun)

theorem flips_is_concatenation_of_runs_witness :
    (⟨2, 3⟩ : Cell).inSquare 0 7 = true ∧
      (Color.black = Color.white ∨ Color.black = Color.black) ∧
      (Board.initOthello Board.ctor).flips ⟨2, 3⟩ Color.black
        = ([(-1,-1),(-1,0),(-1,1),(0,-1),(0,1),(1,-1),(1,0),(1,1)].map
            ((Board.initOthello Board.ctor).run ⟨2, 3⟩ Color.black)).flatten :=
  ⟨by decide, Or.inr rfl,
    (flips_is_concatenation_of_runs (Board.initOthello Board.ctor) ⟨2, 3⟩ Color.black
      (by decide) (Or.inr rfl)).1⟩

/-- C2: for an on-board cell, `validMove (cell, color)` is true if and only if the cell
holds `none` and `countFlips (cell, color) > 0`; it returns a boolean, and it is false for
every occupied cell. -/
theorem validMove_iff_empty_and_flips (b : Board) (cell : Cell) (color : Color)
    (hcell : cell.inSquare 0 7 = true) :
    (b.validMove cell color = some true ↔
        b.get? cell = some Color.none ∧ 0 < b.countFlips cell color) ∧
      (b.validMove cell color = some true ∨ b.validMove cell color = some false) ∧
      (b.get? cell ≠ some Color.none → b.validMove cell color = some false) := by
  rw [validMove_eq b cell color hcell]
  refine ⟨?_, ?_, ?_⟩
  · simp
  · cases decide (b.get? cell = some Color.none ∧ 0 < b.countFlips cell color) <;> simp
  · intro h
    simp [h]

theorem validMove_iff_empty_and_flips_witness :
    (⟨3, 3⟩ : Cell).inSquare 0 7 = true ∧
      (Board.initOthello Board.ctor).validMove ⟨3, 3⟩ Color.black = some false :=
  ⟨by decide,
    (validMove_iff_empty_and_flips (Board.initOthello Board.ctor) ⟨3, 3⟩ Color.black
      (by decide)).2.2 (by decide)⟩

/-- A legal move on a grid of `white`, `black` and `none` is carried out, and the color of
the first flipped cell is the opposite color. -/
theorem makeMove_of_valid (b : Board) (cell : Cell) (color : Color) (hstd : b.Standard)
    (hcolor : color = Color.white ∨ color = Color.black)
    (hvalid : b.validMove cell color = some true) :
    ∃ b1, b.makeMove cell color = some b1 ∧
      b1.scores color
        = toInt32 (b.scores color + (1 + ((b.flips cell color).length : Int))) ∧
      b1.scores color.opposite
        = toInt32 (b.scores color.opposite - ((b.flips cell color).length : Int)) ∧
      (∀ k, k ≠ color → k ≠ color.opposite → b1.scores k = b.scores k) ∧
      ∀ c, b1.get? c = if c = cell ∨ c ∈ b.flips cell color then some color else b.get? c := by
  obtain ⟨hempty, hne⟩ := (validMove_true_iff b cell color).1 hvalid
  have hcell : cell.inSquare 0 7 = true := (get?_isSome_iff b cell).1 ⟨_, hempty⟩
  obtain ⟨b1, c0, k, hb1, hhead, hk, hs, hg⟩ := makeMove_spec b cell color hcell hne
  have hc0 : c0 ∈ b.flips cell color := List.mem_of_mem_head? hhead
  have hopp := flips_opposing hc0
  rw [hk] at hopp
  have hk1 : k ≠ Color.none := fun e => hopp.2.1 (congrArg some e)
  have hk2 : k ≠ color := fun e => hopp.2.2 (congrArg some e)
  have hko : k = color.opposite := opposite_of_standard hcolor (hstd c0 k hk) hk1 hk2
  subst hko
  have hoc := opposite_ne hcolor
  refine ⟨b1, hb1, ?_, ?_, ?_, hg⟩
  · rw [hs]
    simp [setScore, hoc.symm]
  · rw [hs]
    simp [setScore, hoc]
  · intro k h1 h2
    rw [hs]
    simp [setScore, h1, h2]

theorem initOthello_get? (b : Board) (c : Cell) (v : Color)
    (h : (Board.initOthello b).get? c = some v) :
    v = (if (c.row = 3 ∧ c.col = 4) ∨ (c.row = 4 ∧ c.col = 3) then Color.black
         else if (c.row = 3 ∧ c.col = 3) ∨ (c.row = 4 ∧ c.col = 4) then Color.white
         else Color.none) := by
  unfold Board.get? at h
  split at h
  next hc =>
    have h := (Option.some.inj h).symm
    rw [h]
    simp only [Board.initOthello]
    have e1 : ∀ n : Nat, c.row.toNat = n ↔ c.row = (n : Int) := by intro n; omega
    have e2 : ∀ n : Nat, c.col.toNat = n ↔ c.col = (n : Int) := by intro n; omega
    simp only [e1, e2]
    rfl
  next => cases h

theorem initOthello_standard (b : Board) : (Board.initOthello b).Standard := by
  intro c v h
  rw [initOthello_get? b c v h]
  split_ifs <;> simp

theorem initOthello_countInvariant (b0 : Board) : (Board.initOthello b0).CountInvariant := by
  have e : ∀ v, (Board.initOthello b0).count v = (Board.initOthello Board.ctor).count v :=
    fun _ => rfl
  have hW : (Board.initOthello b0).count Color.white = 2 := (e _).trans (by decide)
  have hB : (Board.initOthello b0).count Color.black = 2 := (e _).trans (by decide)
  have hN : (Board.initOthello b0).count Color.none = 60 := (e _).trans (by decide)
  have sW : (Board.initOthello b0).scores Color.white = 2 := by
    simp [Board.initOthello, setScore, white_ne_black]
  have sB : (Board.initOthello b0).scores Color.black = 2 := by
    simp [Board.initOthello, setScore]
  unfold Board.CountInvariant
  rw [hW, hB, hN, sW, sB]
  decide

theorem makeMove_countInvariant (b : Board) (cell : Cell) (color : Color)
    (hinv : b.CountInvariant) (hcolor : color = Color.white ∨ color = Color.black)
    (hvalid : b.validMove cell color = some true) :
    ∃ b1, b.makeMove cell color = some b1 ∧ b1.CountInvariant := by
  obtain ⟨iW, iB, iS⟩ := hinv
  have hstd : b.Standard := standard_of_counts b (by omega)
  obtain ⟨b1, hb1, hs1, hs2, _, hg⟩ := makeMove_of_valid b cell color hstd hcolor hvalid
  obtain ⟨c1, c2, c3⟩ := counts_after_move hstd hcolor hvalid hg
  have hle : ∀ v, b1.count v ≤ 64 := by
    intro v
    have := List.countP_le_length (fun c => b1.get? c == some v) (l := allCells)
    rw [allCells_length] at this
    exact this
  have hW := hle Color.white
  have hB := hle Color.black
  refine ⟨b1, hb1, ?_⟩
  unfold Board.CountInvariant
  rcases hcolor with h | h
  · subst h
    have ho : Color.white.opposite = Color.black := by decide
    rw [ho] at hs2 c2
    unfold toInt32 at hs1 hs2
    rw [hs1, hs2]
    omega
  · subst h
    have ho : Color.black.opposite = Color.white := by decide
    rw [ho] at hs2 c2
    unfold toInt32 at hs1 hs2
    rw [hs1, hs2]
    omega

/-- C4: the count invariant (the counter of each of white and black is the number of cells
holding that color, and the two counters plus the number of `none` cells are 64) holds
after `initOthello`, is kept by `makeMove (cell, color)` for an on-board cell and a color in
{white, black} with `validMove (cell, color)` true, and so holds on every board reachable
from `initOthello` by legal moves. -/
theorem count_invariant_established_and_preserved :
    (∀ b0 : Board, (Board.initOthello b0).CountInvariant) ∧
      (∀ (b : Board) (cell : Cell) (color : Color), b.CountInvariant →
        cell.inSquare 0 7 = true → (color = Color.white ∨ color = Color.black) →
        b.validMove cell color = some true →
        ∃ b1, b.makeMove cell color = some b1 ∧ b1.CountInvariant) ∧
      (∀ b : Board, b.Reachable → b.CountInvariant) := by
  refine ⟨initOthello_countInvariant, ?_, ?_⟩
  · intro b cell color hinv _ hcolor hvalid
    exact makeMove_countInvariant b cell color hinv hcolor hvalid
  · intro b hb
    induction hb with
    | init b0 => exact initOthello_countInvariant b0
    | move b b1 cell color _ hcolor hvalid hmove ih =>
      obtain ⟨b2, hb2, hinv⟩ := makeMove_countInvariant b cell color ih hcolor hvalid
      rw [hmove] at hb2
      cases hb2
      exact hinv

theorem count_invariant_established_and_preserved_witness :
    (Board.initOthello Board.ctor).CountInvariant ∧
      (⟨2, 3⟩ : Cell).inSquare 0 7 = true ∧
      (Color.black = Color.white ∨ Color.black = Color.black) ∧
      (Board.initOthello Board.ctor).validMove ⟨2, 3⟩ Color.black = some true ∧
      ∃ b1, (Board.initOthello Board.ctor).makeMove ⟨2, 3⟩ Color.black = some b1 ∧
        b1.CountInvariant :=
  ⟨count_invariant_established_and_preserved.1 Board.ctor, by decide, Or.inr rfl, by decide,
    count_invariant_established_and_preserved.2.1 (Board.initOthello Board.ctor) ⟨2, 3⟩
      Color.black (count_invariant_established_and_preserved.1 Board.ctor) (by decide)
      (Or.inr rfl) (by decide)⟩

/-! ### `canMove` -/

theorem validMove_isSome (b : Board) (cell : Cell) (color : Color)
    (hcell : cell.inSquare 0 7 = true) :
    b.validMove cell color = some true ∨ b.validMove cell color = some false := by
  rw [validMove_eq b cell color hcell]
  cases decide (b.get? cell = some Color.none ∧ 0 < b.countFlips cell color) <;> simp

theorem canMoveFrom_spec (b : Board) (color : Color) :
    ∀ l : List Cell, (∀ c ∈ l, c.inSquare 0 7 = true) →
      ∃ r, b.canMoveFrom color l = some r ∧
        (r = true ↔ ∃ c ∈ l, b.validMove c color = some true)
  | [], _ => ⟨false, rfl, by simp⟩
  | c :: rest, h => by
    obtain ⟨r, hr, hiff⟩ :=
      canMoveFrom_spec b color rest (fun x hx => h x (List.mem_cons_of_mem _ hx))
    rcases validMove_isSome b c color (h c (List.mem_cons_self _ _)) with hv | hv
    · refine ⟨true, ?_, ?_⟩
      · rw [Board.canMoveFrom, hv]
      · simp [hv]
    · refine ⟨r, ?_, ?_⟩
      · rw [Board.canMoveFrom, hv]
        exact hr
      · rw [hiff]
        simp [hv]

theorem canMove_spec (b : Board) (color : Color) :
    ∃ r, b.canMove color = some r ∧
      (r = true ↔ ∃ c, c.inSquare 0 7 = true ∧ b.validMove c color = some true) := by
  obtain ⟨r, hr, hiff⟩ := canMoveFrom_spec b color allCells (fun c hc => (mem_allCells c).1 hc)
  refine ⟨r, hr, ?_⟩
  rw [hiff]
  constructor
  · rintro ⟨c, hc, hv⟩
    exact ⟨c, (mem_allCells c).1 hc, hv⟩
  · rintro ⟨c, hc, hv⟩
    exact ⟨c, (mem_allCells c).2 hc, hv⟩

/-- C5: `canMove (color)` returns true if and only if there is a cell `(i, j)` with
`0 <= i, j <= 7` for which `validMove ((i, j), color)` is true, and returns false if and
only if there is no such cell. -/
theorem canMove_iff_exists_validMove (b : Board) (color : Color) :
    (b.canMove color = some true ↔
        ∃ i j : Int, 0 ≤ i ∧ i ≤ 7 ∧ 0 ≤ j ∧ j ≤ 7 ∧ b.validMove ⟨i, j⟩ color = some true) ∧
      (b.canMove color = some false ↔
        ¬ ∃ i j : Int, 0 ≤ i ∧ i ≤ 7 ∧ 0 ≤ j ∧ j ≤ 7 ∧ b.validMove ⟨i, j⟩ color = some true) ∧
      (b.canMove color = some true ∨ b.canMove color = some false) := by
  obtain ⟨r, hr, hiff⟩ := canMove_spec b color
  have key : (∃ c : Cell, c.inSquare 0 7 = true ∧ b.validMove c color = some true) ↔
      ∃ i j : Int, 0 ≤ i ∧ i ≤ 7 ∧ 0 ≤ j ∧ j ≤ 7 ∧ b.validMove ⟨i, j⟩ color = some true := by
    constructor
    · rintro ⟨c, hc, hv⟩
      rw [inSquare_iff] at hc
      exact ⟨c.row, c.col, by omega, by omega, by omega, by omega, hv⟩
    · rintro ⟨i, j, h1, h2, h3, h4, hv⟩
      refine ⟨⟨i, j⟩, ?_, hv⟩
      rw [inSquare_iff]
      simp only
      omega
  rw [← key, hr]
  cases r with
  | true => simpa using hiff
  | false => simpa using hiff

/-! ### The turn transition -/

theorem canMove_isSome (b : Board) (color : Color) :
    b.canMove color = some true ∨ b.canMove color = some false := by
  obtain ⟨r, hr, _⟩ := canMove_spec b color
  cases r
  · exact Or.inr hr
  · exact Or.inl hr

theorem endTurn_spec (g : Game) (turn next : Color) :
    ∃ g1 turn1, g.endTurn turn next = some (g1, turn1) ∧
      g1.board = g.board ∧ g1.human = g.human ∧ g1.computer = g.computer ∧
      (g.board.canMove next = some true → turn1 = next ∧ g1.finished = g.finished) ∧
      (g.board.canMove next = some false → g.board.canMove turn = some true →
        turn1 = turn ∧ g1.finished = g.finished) ∧
      (g.board.canMove next = some false → g.board.canMove turn = some false →
        turn1 = next ∧ g1.finished = true) := by
  unfold Game.endTurn
  rcases canMove_isSome g.board next with h1 | h1
  · rw [h1]
    exact ⟨g, next, rfl, rfl, rfl, rfl, fun _ => ⟨rfl, rfl⟩, (fun h => by cases h),
      (fun h => by cases h)⟩
  · rcases canMove_isSome g.board turn with h2 | h2
    · rw [h1, h2]
      exact ⟨g, turn, rfl, rfl, rfl, rfl, (fun h => by cases h), fun _ _ => ⟨rfl, rfl⟩,
        (fun _ h => by cases h)⟩
    · rw [h1, h2]
      exact ⟨{ g with finished := true }, next, rfl, rfl, rfl, rfl, (fun h => by cases h),
        (fun _ h => by cases h), fun _ _ => ⟨rfl, rfl⟩⟩

/-- The end of the loop body when `current` and `other` are the two opposite player colors:
the turn goes to `other` if it can move, else stays with `current` if it can move, else the
game is finished; `finished` becomes true exactly when neither white nor black can move. -/
theorem endTurn_transition (g : Game) (current other : Color)
    (hcolors : (current = Color.white ∧ other = Color.black) ∨
      (current = Color.black ∧ other = Color.white))
    (hfin : g.finished = false) :
    ∃ g1 turn1, g.endTurn current other = some (g1, turn1) ∧ g1.board = g.board ∧
      (g.board.canMove other = some true → turn1 = other ∧ g1.finished = false) ∧
      (g.board.canMove other = some false → g.board.canMove current = some true →
        turn1 = current ∧ g1.finished = false) ∧
      (g.board.canMove other = some false → g.board.canMove current = some false →
        g1.finished = true) ∧
      (g1.finished = true ↔
        g.board.canMove Color.white = some false ∧ g.board.canMove Color.black = some false) := by
  obtain ⟨g1, turn1, he, hb, _, _, h1, h2, h3⟩ := endTurn_spec g current other
  rw [hfin] at h1 h2
  refine ⟨g1, turn1, he, hb, h1, h2, fun a c => (h3 a c).2, ?_⟩
  have hboth : g1.finished = true ↔
      g.board.canMove current = some false ∧ g.board.canMove other = some false := by
    rcases canMove_isSome g.board other with ho | ho
    · have := (h1 ho).2
      rw [this, ho]
      simp
    · rcases canMove_isSome g.board current with hc | hc
      · have := (h2 ho hc).2
        rw [this, hc]
        simp
      · have := (h3 ho hc).2
        rw [this, ho, hc]
        simp
  rw [hboth]
  rcases hcolors with ⟨rfl, rfl⟩ | ⟨rfl, rfl⟩
  · exact Iff.rfl
  · exact and_comm

/-! ### `initOthello` -/

theorem initOthello_get?_eq (b : Board) (c : Cell) (hc : c.inSquare 0 7 = true) :
    (Board.initOthello b).get? c
      = some (if (c.row = 3 ∧ c.col = 4) ∨ (c.row = 4 ∧ c.col = 3) then Color.black
         else if (c.row = 3 ∧ c.col = 3) ∨ (c.row = 4 ∧ c.col = 4) then Color.white
         else Color.none) := by
  obtain ⟨v, hv⟩ := (get?_isSome_iff (Board.initOthello b) c).2 hc
  rw [hv, initOthello_get? b c v hv]

/-- C8: whatever the board was before, after `initOthello` the grid holds white at (3,3)
and (4,4), black at (3,4) and (4,3) and `none` at each other cell of the board, and
`scores[white] = 2`, `scores[black] = 2`; the grid and these two counters do not depend on
the prior grid or scores. -/
theorem initOthello_position (b : Board) :
    (Board.initOthello b).get? ⟨3, 3⟩ = some Color.white ∧
      (Board.initOthello b).get? ⟨4, 4⟩ = some Color.white ∧
      (Board.initOthello b).get? ⟨3, 4⟩ = some Color.black ∧
      (Board.initOthello b).get? ⟨4, 3⟩ = some Color.black ∧
      (∀ c : Cell, c.inSquare 0 7 = true → c ≠ ⟨3, 3⟩ → c ≠ ⟨4, 4⟩ → c ≠ ⟨3, 4⟩ → c ≠ ⟨4, 3⟩ →
        (Board.initOthello b).get? c = some Color.none) ∧
      (Board.initOthello b).count Color.none = 60 ∧
      (Board.initOthello b).scores Color.white = 2 ∧
      (Board.initOthello b).scores Color.black = 2 ∧
      (∀ b1 : Board, (Board.initOthello b1).board = (Board.initOthello b).board ∧
        (Board.initOthello b1).scores Color.white = (Board.initOthello b).scores Color.white ∧
        (Board.initOthello b1).scores Color.black = (Board.initOthello b).scores Color.black) := by
  have sW : ∀ b0 : Board, (Board.initOthello b0).scores Color.white = 2 := by
    intro b0
    simp [Board.initOthello, setScore, white_ne_black]
  have sB : ∀ b0 : Board, (Board.initOthello b0).scores Color.black = 2 := by
    intro b0
    simp [Board.initOthello, setScore]
  have e : ∀ c, (Board.initOthello b).get? c = (Board.initOthello Board.ctor).get? c :=
    fun _ => rfl
  have eN : (Board.initOthello b).count Color.none = (Board.initOthello Board.ctor).count Color.none :=
    rfl
  refine ⟨(e _).trans (by decide), (e _).trans (by decide), (e _).trans (by decide),
    (e _).trans (by decide), ?_, eN.trans (by decide), sW b, sB b, ?_⟩
  · intro c hc h1 h2 h3 h4
    rw [initOthello_get?_eq b c hc]
    have n1 : ¬ ((c.row = 3 ∧ c.col = 4) ∨ (c.row = 4 ∧ c.col = 3)) := by
      rintro (⟨hr, hcl⟩ | ⟨hr, hcl⟩)
      · exact h3 (by cases c; simp_all)
      · exact h4 (by cases c; simp_all)
    have n2 : ¬ ((c.row = 3 ∧ c.col = 3) ∨ (c.row = 4 ∧ c.col = 4)) := by
      rintro (⟨hr, hcl⟩ | ⟨hr, hcl⟩)
      · exact h1 (by cases c; simp_all)
      · exact h2 (by cases c; simp_all)
    rw [if_neg n1, if_neg n2]
  · intro b1
    exact ⟨rfl, by rw [sW, sW], by rw [sB, sB]⟩

/-- C9: on the board produced by `initOthello` the token "3d" parses to the cell (2, 3);
`validMove ((2,3), black)` is true; `flips ((2,3), black)` is the list `[(3,3)]`; after
`makeMove ((2,3), black)` the counters are white 1 and black 4 and the cells (2,3) and (3,3)
hold black. -/
theorem opening_move_3d (b0 : Board) (cell0 : Cell) :
    Human_player.validTurnString "3d" cell0 = (true, ⟨2, 3⟩) ∧
      (Board.initOthello b0).validMove ⟨2, 3⟩ Color.black = some true ∧
      (Board.initOthello b0).flips ⟨2, 3⟩ Color.black = [⟨3, 3⟩] ∧
      ∃ b1, (Board.initOthello b0).makeMove ⟨2, 3⟩ Color.black = some b1 ∧
        b1.scores Color.white = 1 ∧ b1.scores Color.black = 4 ∧
        b1.get? ⟨2, 3⟩ = some Color.black ∧ b1.get? ⟨3, 3⟩ = some Color.black := by
  have ef : (Board.initOthello b0).flips ⟨2, 3⟩ Color.black
      = (Board.initOthello Board.ctor).flips ⟨2, 3⟩ Color.black := rfl
  have hf : (Board.initOthello b0).flips ⟨2, 3⟩ Color.black = [⟨3, 3⟩] := by
    rw [ef]
    decide
  have ev : (Board.initOthello b0).validMove ⟨2, 3⟩ Color.black
      = (Board.initOthello Board.ctor).validMove ⟨2, 3⟩ Color.black := rfl
  have hv : (Board.initOthello b0).validMove ⟨2, 3⟩ Color.black = some true := by
    rw [ev]
    decide
  refine ⟨rfl, hv, hf, ?_⟩
  obtain ⟨b1, hb1, hs1, hs2, _, hg⟩ := makeMove_of_valid (Board.initOthello b0) ⟨2, 3⟩
    Color.black (initOthello_standard b0) (Or.inr rfl) hv
  have ho : Color.black.opposite = Color.white := by decide
  have sW : (Board.initOthello b0).scores Color.white = 2 := by
    simp [Board.initOthello, setScore, white_ne_black]
  have sB : (Board.initOthello b0).scores Color.black = 2 := by
    simp [Board.initOthello, setScore]
  rw [ho] at hs2
  rw [hf] at hs1 hs2 hg
  refine ⟨b1, hb1, ?_, ?_, ?_, ?_⟩
  · rw [hs2, sW]; rfl
  · rw [hs1, sB]; rfl
  · rw [hg]; simp
  · rw [hg]; simp

/-! ### The computer player -/

theorem collect_spec (color : Color) (board : Board) :
    ∀ (l acc : List Cell), (∀ c ∈ l, c.inSquare 0 7 = true) →
      Computer_player.collect color board l acc
        = some (acc ++ l.filter (fun c => board.validMove c color == some true))
  | [], acc, _ => by simp [Computer_player.collect]
  | c :: rest, acc, h => by
    have ih := fun acc1 => collect_spec color board rest acc1
      (fun x hx => h x (List.mem_cons_of_mem _ hx))
    rcases validMove_isSome board c color (h c (List.mem_cons_self _ _)) with hv | hv
    · rw [Computer_player.collect, hv]
      simp only []
      rw [ih, List.filter_cons, hv]
      simp
    · rw [Computer_player.collect, hv]
      simp only []
      rw [ih, List.filter_cons, hv]
      simp

/-- The vector `possibilities` of `Computer_player::makeMove`: the valid moves in the order
of the scan. -/
theorem collect_allCells (color : Color) (board : Board) :
    Computer_player.collect color board allCells []
      = some (allCells.filter (fun c => board.validMove c color == some true)) := by
  rw [collect_spec color board allCells [] (fun c hc => (mem_allCells c).1 hc)]
  rfl

theorem mem_possibilities (color : Color) (board : Board) (c : Cell) :
    c ∈ allCells.filter (fun c => board.validMove c color == some true)
      ↔ board.validMove c color = some true := by
  rw [List.mem_filter]
  constructor
  · intro h
    simpa using h.2
  · intro h
    refine ⟨?_, by simpa using h⟩
    rw [mem_allCells, ← get?_isSome_iff board c]
    exact ⟨_, ((validMove_true_iff board c color).1 h).1⟩

theorem possibilities_ne_nil (color : Color) (board : Board)
    (hcan : board.canMove color = some true) :
    ∃ p0, (allCells.filter (fun c => board.validMove c color == some true))[0]? = some p0 := by
  obtain ⟨r, hr, hiff⟩ := canMove_spec board color
  rw [hcan] at hr
  cases hr
  obtain ⟨c, _, hv⟩ := hiff.1 rfl
  have hm := (mem_possibilities color board c).2 hv
  cases hP : allCells.filter (fun c => board.validMove c color == some true) with
  | nil => rw [hP] at hm; cases hm
  | cons p0 rest => exact ⟨p0, by simp⟩

theorem scan_spec (color : Color) (board : Board) (P : List Cell) :
    ∀ (n s : Nat) (st : Nat × Int), s + n ≤ P.length → st.1 < s →
      (∃ c, P[st.1]? = some c ∧ Computer_player.getPriority color c board = st.2) →
      (∀ j c, j < s → P[j]? = some c → Computer_player.getPriority color c board ≤ st.2) →
      (∀ j c, j < st.1 → P[j]? = some c → Computer_player.getPriority color c board < st.2) →
      ∃ st1, Computer_player.scan color board P (List.range' s n) st = some st1 ∧
        st1.1 < s + n ∧
        (∃ c, P[st1.1]? = some c ∧ Computer_player.getPriority color c board = st1.2) ∧
        (∀ j c, j < s + n → P[j]? = some c →
          Computer_player.getPriority color c board ≤ st1.2) ∧
        (∀ j c, j < st1.1 → P[j]? = some c →
          Computer_player.getPriority color c board < st1.2)
  | 0, s, st, _, h1, h2, h3, h4 => ⟨st, rfl, h1, h2, h3, h4⟩
  | n + 1, s, st, hlen, h1, h2, h3, h4 => by
    have hs : s < P.length := by omega
    have hPs : P[s]? = some P[s] := List.getElem?_eq_getElem hs
    rw [List.range'_succ, Computer_player.scan, hPs]
    simp only []
    by_cases hgt : Computer_player.getPriority color P[s] board > st.2
    · rw [if_pos hgt]
      obtain ⟨st1, e, k1, k2, k3, k4⟩ := scan_spec color board P n (s + 1)
        (s, Computer_player.getPriority color P[s] board) (by omega) (by simp)
        ⟨P[s], hPs, rfl⟩
        (by
          intro j c hj hc
          by_cases hjs : j = s
          · subst hjs
            rw [hPs] at hc
            cases hc
            exact le_refl _
          · have := h3 j c (by omega) hc
            show _ ≤ Computer_player.getPriority color P[s] board
            omega)
        (by
          intro j c hj hc
          have := h3 j c hj hc
          show _ < Computer_player.getPriority color P[s] board
          omega)
      exact ⟨st1, e, by omega, k2, fun j c hj => k3 j c (by omega), k4⟩
    · rw [if_neg hgt]
      obtain ⟨st1, e, k1, k2, k3, k4⟩ := scan_spec color board P n (s + 1) st (by omega)
        (by omega) h2
        (by
          intro j c hj hc
          by_cases hjs : j = s
          · subst hjs
            rw [hPs] at hc
            cases hc
            omega
          · exact h3 j c (by omega) hc)
        h4
      exact ⟨st1, e, by omega, k2, fun j c hj => k3 j c (by omega), k4⟩

theorem allCells_pairwise_before : allCells.Pairwise Cell.before := by decide

theorem pairwise_getElem? {α : Type} {R : α → α → Prop} {l : List α} (h : l.Pairwise R)
    {i j : Nat} {a c : α} (hi : l[i]? = some a) (hj : l[j]? = some c) (hij : i < j) :
    R a c := by
  obtain ⟨h1, rfl⟩ := List.getElem?_eq_some_iff.1 hi
  obtain ⟨h2, rfl⟩ := List.getElem?_eq_some_iff.1 hj
  exact List.pairwise_iff_getElem.1 h i j h1 h2 hij

theorem getPriority_eq (color : Color) (c : Cell) (board : Board) :
    Computer_player.getPriority color c board
      = board.countFlips c color
        + (if c = ⟨0, 0⟩ ∨ c = ⟨0, 7⟩ ∨ c = ⟨7, 0⟩ ∨ c = ⟨7, 7⟩ then 10 else 0) := by
  unfold Computer_player.getPriority
  simp only [Board.size]
  have e : ((c.row = 0 ∨ c.row = 8 - 1) ∧ (c.col = 0 ∨ c.col = 8 - 1))
      ↔ (c = ⟨0, 0⟩ ∨ c = ⟨0, 7⟩ ∨ c = ⟨7, 0⟩ ∨ c = ⟨7, 7⟩) := by
    cases c
    simp only [Cell.mk.injEq]
    omega
  by_cases h : c = ⟨0, 0⟩ ∨ c = ⟨0, 7⟩ ∨ c = ⟨7, 0⟩ ∨ c = ⟨7, 7⟩
  · rw [if_pos (e.2 h), if_pos h]
  · rw [if_neg (mt e.1 h), if_neg h]
    omega

/-- The choice of the computer, by the scan over the valid moves. -/
theorem chooseCell_spec (color : Color) (board : Board)
    (hcan : board.canMove color = some true) :
    ∃ cell, Computer_player.chooseCell color board = some cell ∧
      board.validMove cell color = some true ∧
      (∀ c, board.validMove c color = some true →
        Computer_player.getPriority color c board
          ≤ Computer_player.getPriority color cell board) ∧
      (∀ c, board.validMove c color = some true →
        Computer_player.getPriority color c board
          = Computer_player.getPriority color cell board → c = cell ∨ cell.before c) := by
  obtain ⟨p0, hp0⟩ := possibilities_ne_nil color board hcan
  have hcol := collect_allCells color board
  generalize hP : allCells.filter (fun c => board.validMove c color == some true) = P
    at hp0 hcol
  have hmem : ∀ c, c ∈ P ↔ board.validMove c color = some true := by
    intro c
    rw [← hP]
    exact mem_possibilities color board c
  have hpw : P.Pairwise Cell.before := by
    rw [← hP]
    exact allCells_pairwise_before.filter _
  have hlen : 0 < P.length := by
    obtain ⟨h, _⟩ := List.getElem?_eq_some_iff.1 hp0
    exact h
  obtain ⟨st1, e, k1, ⟨cell, hcell, hprio⟩, k3, k4⟩ := scan_spec color board P (P.length - 1) 1
    (0, Computer_player.getPriority color p0 board) (by omega) (by simp) ⟨p0, hp0, rfl⟩
    (by
      intro j c hj hc
      have : j = 0 := by omega
      subst this
      rw [hp0] at hc
      cases hc
      exact le_refl _)
    (by
      intro j c hj
      simp at hj)
  refine ⟨cell, ?_, ?_, ?_, ?_⟩
  · unfold Computer_player.chooseCell
    rw [hcol]
    simp only [hp0, e]
    exact hcell
  · exact (hmem cell).1 (List.mem_iff_getElem?.2 ⟨_, hcell⟩)
  · intro c hc
    obtain ⟨j, hj⟩ := List.mem_iff_getElem?.1 ((hmem c).2 hc)
    obtain ⟨hjl, _⟩ := List.getElem?_eq_some_iff.1 hj
    rw [hprio]
    exact k3 j c (by omega) hj
  · intro c hc heq
    obtain ⟨j, hj⟩ := List.mem_iff_getElem?.1 ((hmem c).2 hc)
    rcases Nat.lt_trichotomy j st1.1 with hlt | heq1 | hgt
    · have := k4 j c hlt hj
      rw [heq, hprio] at this
      exact absurd this (lt_irrefl _)
    · rw [heq1, hcell] at hj
      exact Or.inl (Option.some.inj hj).symm
    · exact Or.inr (pairwise_getElem? hpw hcell hj hgt)

/-- C10: when `canMove (color)` is true, the cell `Computer_player::makeMove` plays (a) is a
valid move for `color`; (b) has a priority, `countFlips` plus 10 on the four corners, at
least that of every valid move; (c) comes first in row-major order among the valid moves of
that priority. -/
theorem computer_plays_first_best_move (b : Board) (color : Color)
    (_hcolor : color = Color.white ∨ color = Color.black)
    (hcan : b.canMove color = some true) :
    ∃ cell, Computer_player.chooseCell color b = some cell ∧
      Computer_player.makeMove color b = b.makeMove cell color ∧
      b.validMove cell color = some true ∧
      (∀ c, Computer_player.getPriority color c b
        = b.countFlips c color
          + (if c = ⟨0, 0⟩ ∨ c = ⟨0, 7⟩ ∨ c = ⟨7, 0⟩ ∨ c = ⟨7, 7⟩ then 10 else 0)) ∧
      (∀ c, b.validMove c color = some true →
        Computer_player.getPriority color c b ≤ Computer_player.getPriority color cell b) ∧
      (∀ c, b.validMove c color = some true →
        Computer_player.getPriority color c b = Computer_player.getPriority color cell b →
        c = cell ∨ cell.before c) := by
  obtain ⟨cell, h1, h2, h3, h4⟩ := chooseCell_spec color b hcan
  refine ⟨cell, h1, ?_, h2, fun c => getPriority_eq color c b, h3, h4⟩
  unfold Computer_player.makeMove
  rw [h1]

theorem computer_plays_first_best_move_witness :
    (Color.black = Color.white ∨ Color.black = Color.black) ∧
      (Board.initOthello Board.ctor).canMove Color.black = some true ∧
      ∃ cell, Computer_player.chooseCell Color.black (Board.initOthello Board.ctor) = some cell ∧
        (Board.initOthello Board.ctor).validMove cell Color.black = some true :=
  ⟨Or.inr rfl, by decide,
    let ⟨cell, h1, _, h2, _⟩ :=
      computer_plays_first_best_move (Board.initOthello Board.ctor) Color.black (Or.inr rfl)
        (by decide)
    ⟨cell, h1, h2⟩⟩

/-! ### The loop of `Game::play` -/

/-- The move of the human player is a valid move of its color. -/
theorem humanMove_spec (color : Color) (board : Board) :
    ∀ (input : List String) (cell : Cell) (b1 : Board) (rest : List String),
      Human_player.makeMove color board input cell = some (b1, rest) →
      ∃ c, board.validMove c color = some true ∧ board.makeMove c color = some b1
  | [], _, _, _, h => by cases h
  | turn :: more, cell, b1, rest, h => by
    rw [Human_player.makeMove] at h
    split at h
    · split at h
      · cases h
      next hv =>
        split at h
        · cases h
        next b2 hb2 =>
          cases h
          refine ⟨_, ?_, hb2⟩
          unfold Human_player.validTurn at hv
          split at hv
          · cases hv
          · cases hv
          next hvm => exact hvm
      · exact humanMove_spec color board more _ b1 rest h
    · exact humanMove_spec color board more _ b1 rest h

theorem endTurn_some {g g1 : Game} {turn next turn1 : Color}
    (h : g.endTurn turn next = some (g1, turn1)) :
    g1.board = g.board ∧ g1.human = g.human ∧ g1.computer = g.computer ∧
      (turn1 = turn ∨ turn1 = next) ∧
      (g1.finished = false → g1.board.canMove turn1 = some true) := by
  obtain ⟨g2, turn2, he, hb, hh, hc, h1, h2, h3⟩ := endTurn_spec g turn next
  rw [h] at he
  cases he
  refine ⟨hb, hh, hc, ?_, ?_⟩
  · rcases canMove_isSome g.board next with hn | hn
    · exact Or.inr (h1 hn).1
    · rcases canMove_isSome g.board turn with ht | ht
      · exact Or.inl (h2 hn ht).1
      · exact Or.inr (h3 hn ht).1
  · intro hfin
    rw [hb]
    rcases canMove_isSome g.board next with hn | hn
    · rw [(h1 hn).1]
      exact hn
    · rcases canMove_isSome g.board turn with ht | ht
      · rw [(h2 hn ht).1]
        exact ht
      · rw [(h3 hn ht).2] at hfin
        cases hfin

theorem initOthello_canMove_black (b0 : Board) :
    (Board.initOthello b0).canMove Color.black = some true := by
  have e : (Board.initOthello b0).canMove Color.black
      = (Board.initOthello Board.ctor).canMove Color.black := rfl
  rw [e]
  decide

/-- At the head of the loop the two players hold white and black, `turn` is the color of one
of them, and it has a valid move unless the game is finished. -/
theorem loop_invariant {g : Game} {turn : Color} (h : Game.AtLoopHead g turn) :
    ((g.human = Color.white ∧ g.computer = Color.black) ∨
        (g.human = Color.black ∧ g.computer = Color.white)) ∧
      (turn = g.human ∨ turn = g.computer) ∧
      (g.finished = false → g.board.canMove turn = some true) := by
  induction h with
  | start g option hopt =>
    unfold Game.start Game.createPlayers
    simp only []
    split
    · exact ⟨Or.inl ⟨rfl, rfl⟩, Or.inr rfl, fun _ => initOthello_canMove_black g.board⟩
    · exact ⟨Or.inr ⟨rfl, rfl⟩, Or.inl rfl, fun _ => initOthello_canMove_black g.board⟩
  | next g g1 turn turn1 input rest cell _ hfin hit ih =>
    obtain ⟨hcolors, hturn, _⟩ := ih
    unfold Game.iteration at hit
    split at hit
    next hh =>
      split at hit
      · cases hit
      next b1 rest1 _ =>
        split at hit
        · cases hit
        next g2 turn2 he =>
          cases hit
          obtain ⟨_, e2, e3, e4, e5⟩ := endTurn_some he
          simp only [] at e2 e3
          rw [e2, e3]
          refine ⟨hcolors, ?_, e5⟩
          rcases e4 with e4 | e4
          · rw [e4]; exact Or.inl hh
          · rw [e4]; exact Or.inr rfl
    next hh =>
      split at hit
      · cases hit
      next b1 _ =>
        split at hit
        · cases hit
        next g2 turn2 he =>
          cases hit
          obtain ⟨_, e2, e3, e4, e5⟩ := endTurn_some he
          simp only [] at e2 e3
          rw [e2, e3]
          refine ⟨hcolors, ?_, e5⟩
          rcases e4 with e4 | e4
          · rw [e4]
            rcases hturn with ht | ht
            · exact absurd ht hh
            · exact Or.inr ht
          · rw [e4]; exact Or.inl rfl

/-- C7: at the head of every iteration of the loop of `Game::play`, started with black on
the `initOthello` position whichever color the human chose and continued by any iterations,
the color `turn` whose player is invoked has a valid move; when it is the computer's turn
its vector `possibilities` has a first element. -/
theorem mover_always_has_a_move (g : Game) (turn : Color) (hloop : Game.AtLoopHead g turn)
    (hfin : g.finished = false) :
    g.board.canMove turn = some true ∧
      (turn = g.human ∨ turn = g.computer) ∧
      (turn ≠ g.human →
        ∃ possibilities p0 cell,
          Computer_player.collect g.computer g.board allCells [] = some possibilities ∧
          possibilities[0]? = some p0 ∧
          Computer_player.chooseCell g.computer g.board = some cell ∧
          g.board.validMove cell g.computer = some true ∧
          ∃ b1, Computer_player.makeMove g.computer g.board = some b1) := by
  obtain ⟨_, hturn, hcan⟩ := loop_invariant hloop
  refine ⟨hcan hfin, hturn, ?_⟩
  intro hne
  have ht : turn = g.computer := by
    rcases hturn with h | h
    · exact absurd h hne
    · exact h
  have hc := hcan hfin
  rw [ht] at hc
  obtain ⟨p0, hp0⟩ := possibilities_ne_nil g.computer g.board hc
  obtain ⟨cell, h1, h2, _⟩ := chooseCell_spec g.computer g.board hc
  obtain ⟨hempty, hne⟩ := (validMove_true_iff g.board cell g.computer).1 h2
  obtain ⟨b1, _, _, hb1, _⟩ := makeMove_spec g.board cell g.computer
    ((get?_isSome_iff g.board cell).1 ⟨_, hempty⟩) hne
  refine ⟨_, p0, cell, collect_allCells g.computer g.board, hp0, h1, h2, b1, ?_⟩
  unfold Computer_player.makeMove
  rw [h1]
  exact hb1

theorem mover_always_has_a_move_witness :
    Game.AtLoopHead (Game.start (Game.mk Board.ctor Color.none Color.none true) 'w').1
        (Game.start (Game.mk Board.ctor Color.none Color.none true) 'w').2 ∧
      (Game.start (Game.mk Board.ctor Color.none Color.none true) 'w').1.finished = false ∧
      (Game.start (Game.mk Board.ctor Color.none Color.none true) 'w').1.board.canMove
        (Game.start (Game.mk Board.ctor Color.none Color.none true) 'w').2 = some true :=
  ⟨Game.AtLoopHead.start _ 'w' (Or.inl rfl), rfl,
    (mover_always_has_a_move _ _ (Game.AtLoopHead.start _ 'w' (Or.inl rfl)) rfl).1⟩

/-! ### The token of the human player -/

theorem tolower_range (c : Int) :
    (97 ≤ tolower c ∧ tolower c ≤ 104) ↔ ((97 ≤ c ∧ c ≤ 104) ∨ (65 ≤ c ∧ c ≤ 72)) := by
  unfold tolower
  split_ifs <;> omega

/-- The tokens `validTurnString` accepts, and the cell it then writes. -/
theorem validTurnString_spec (turn : String) (cell : Cell) :
    (∃ t0 t1 : Char, turn.data = [t0, t1] ∧
        (49 ≤ (t0.toNat : Int) ∧ (t0.toNat : Int) ≤ 56) ∧
        ((97 ≤ (t1.toNat : Int) ∧ (t1.toNat : Int) ≤ 104) ∨
          (65 ≤ (t1.toNat : Int) ∧ (t1.toNat : Int) ≤ 72)) ∧
        Human_player.validTurnString turn cell
          = (true, ⟨(t0.toNat : Int) - 49, (t1.toNat : Int) - 97⟩)) ∨
      ((¬ ∃ t0 t1 : Char, turn.data = [t0, t1] ∧
          (49 ≤ (t0.toNat : Int) ∧ (t0.toNat : Int) ≤ 56) ∧
          ((97 ≤ (t1.toNat : Int) ∧ (t1.toNat : Int) ≤ 104) ∨
            (65 ≤ (t1.toNat : Int) ∧ (t1.toNat : Int) ≤ 72))) ∧
        Human_player.validTurnString turn cell = (false, cell)) := by
  have h1 : (('1'.toNat : Nat) : Int) = 49 := rfl
  have h8 : (('8'.toNat : Nat) : Int) = 56 := rfl
  have ha : (('a'.toNat : Nat) : Int) = 97 := rfl
  have hh : (('h'.toNat : Nat) : Int) = 104 := rfl
  unfold Human_player.validTurnString
  split
  next t0 t1 hdata =>
    simp only [h1, h8, ha, hh]
    have hr := tolower_range (t1.toNat : Int)
    by_cases hc : (t0.toNat : Int) < 49 ∨ (t0.toNat : Int) > 56 ∨
        tolower (t1.toNat : Int) < 97 ∨ tolower (t1.toNat : Int) > 104
    · right
      rw [if_pos hc]
      refine ⟨?_, rfl⟩
      rintro ⟨u0, u1, hu, hd, hl⟩
      rw [hdata] at hu
      simp only [List.cons.injEq, and_true] at hu
      obtain ⟨rfl, rfl⟩ := hu
      have := hr.2 hl
      omega
    · left
      rw [if_neg hc]
      refine ⟨t0, t1, hdata, by omega, hr.1 (by omega), rfl⟩
  next hne =>
    right
    refine ⟨?_, rfl⟩
    rintro ⟨u0, u1, hu, _⟩
    exact hne u0 u1 hu

/-- C11: what `validTurnString` does with an upper-case column letter.  The token "3D" is
accepted like "3d", but the column is computed from the letter as typed: "3d" gives the cell
(2, 3) and "3D" the cell (2, -29), which is off the board, so that the read of
`validMove`, called next by `validTurn`, is outside the grid.  In general an accepted token
gives the row `d - 1` in 0..7, the column `k` in 0..7 for a lower-case letter and `k - 32`
for an upper-case one. -/
theorem validTurnString_upper_case_column :
    (∀ cell0 : Cell, Human_player.validTurnString "3d" cell0 = (true, ⟨2, 3⟩)) ∧
      (∀ cell0 : Cell, Human_player.validTurnString "3D" cell0 = (true, ⟨2, -29⟩)) ∧
      (⟨2, -29⟩ : Cell).inSquare 0 7 = false ∧
      (∀ (color : Color) (b : Board), Human_player.validTurn color b ⟨2, -29⟩ = Option.none) ∧
      (∀ (turn : String) (cell0 : Cell), (Human_player.validTurnString turn cell0).1 = true →
        0 ≤ (Human_player.validTurnString turn cell0).2.row ∧
        (Human_player.validTurnString turn cell0).2.row ≤ 7 ∧
        ((0 ≤ (Human_player.validTurnString turn cell0).2.col ∧
            (Human_player.validTurnString turn cell0).2.col ≤ 7) ∨
          (-32 ≤ (Human_player.validTurnString turn cell0).2.col ∧
            (Human_player.validTurnString turn cell0).2.col ≤ -25))) := by
  refine ⟨fun _ => rfl, fun _ => rfl, by decide, ?_, ?_⟩
  · intro color b
    have hg : b.get? ⟨2, -29⟩ = Option.none := (get?_eq_none_iff b _).2 (by decide)
    unfold Human_player.validTurn Board.validMove
    rw [hg]
  · intro turn cell0 h
    rcases validTurnString_spec turn cell0 with ⟨t0, t1, _, hd, hl, he⟩ | ⟨_, he⟩
    · rw [he]
      simp only
      omega
    · rw [he] at h
      cases h

/-- C12: `validTurnString` returns true if and only if the string has exactly two
characters, the first a digit '1'..'8' (codes 49..56) and the second a letter 'a'..'h'
(97..104) or 'A'..'H' (65..72); every other string is rejected with false and leaves the
output cell unchanged, for instance a wrong length, the digits 0 and 9, a letter beyond h
and the swapped "d3". -/
theorem validTurnString_accepts_iff (turn : String) (cell : Cell) :
    ((Human_player.validTurnString turn cell).1 = true ↔
        ∃ t0 t1 : Char, turn.data = [t0, t1] ∧
          (('1'.toNat ≤ t0.toNat ∧ t0.toNat ≤ '8'.toNat) ∧
          (('a'.toNat ≤ t1.toNat ∧ t1.toNat ≤ 'h'.toNat) ∨
            ('A'.toNat ≤ t1.toNat ∧ t1.toNat ≤ 'H'.toNat)))) ∧
      ((Human_player.validTurnString turn cell).1 = false →
        (Human_player.validTurnString turn cell).2 = cell) ∧
      Human_player.validTurnString "" cell = (false, cell) ∧
      Human_player.validTurnString "3" cell = (false, cell) ∧
      Human_player.validTurnString "3dd" cell = (false, cell) ∧
      Human_player.validTurnString "0a" cell = (false, cell) ∧
      Human_player.validTurnString "9a" cell = (false, cell) ∧
      Human_player.validTurnString "3i" cell = (false, cell) ∧
      Human_player.validTurnString "d3" cell = (false, cell) := by
  have h1 : '1'.toNat = 49 := rfl
  have h8 : '8'.toNat = 56 := rfl
  have ha : 'a'.toNat = 97 := rfl
  have hh : 'h'.toNat = 104 := rfl
  have hA : 'A'.toNat = 65 := rfl
  have hH : 'H'.toNat = 72 := rfl
  simp only [h1, h8, ha, hh, hA, hH]
  refine ⟨?_, ?_, rfl, rfl, rfl, rfl, rfl, rfl, rfl⟩
  · rcases validTurnString_spec turn cell with ⟨t0, t1, hdata, hd, hl, he⟩ | ⟨hno, he⟩
    · rw [he]
      simp only [true_iff]
      exact ⟨t0, t1, hdata, by omega, by omega⟩
    · rw [he]
      simp only [Bool.false_eq_true, false_iff]
      rintro ⟨t0, t1, hdata, hd, hl⟩
      exact hno ⟨t0, t1, hdata, by omega, by omega⟩
  · intro h
    rcases validTurnString_spec turn cell with ⟨_, _, _, _, _, he⟩ | ⟨_, he⟩
    · rw [he] at h
      cases h
    · rw [he]

/-! ### `Game::over` -/

/-- C15: the result announced by `Game::over` depends only on the two values of
`getScores ()`: it is a tie if and only if the two counts are equal, a human win if and only
if the human's count is strictly greater, a computer win if and only if the computer's count
is strictly greater; exactly one of the three is reported. -/
theorem over_compares_the_two_scores (g : Game) :
    (g.over = Outcome.tie ↔ g.board.getScores g.human = g.board.getScores g.computer) ∧
      (g.over = Outcome.humanWins ↔ g.board.getScores g.human > g.board.getScores g.computer) ∧
      (g.over = Outcome.computerWins ↔
        g.board.getScores g.computer > g.board.getScores g.human) ∧
      (g.over = Outcome.tie ∨ g.over = Outcome.humanWins ∨ g.over = Outcome.computerWins) ∧
      (∀ g1 : Game, g1.board.getScores g1.human = g.board.getScores g.human →
        g1.board.getScores g1.computer = g.board.getScores g.computer → g1.over = g.over) := by
  refine ⟨?_, ?_, ?_, ?_, ?_⟩
  · unfold Game.over
    simp only []
    split_ifs with h1 h2 <;> simp [h1]
  · unfold Game.over
    simp only []
    split_ifs with h1 h2
    · simp [h1]
    · simp [h2]
    · simp [h2]
  · unfold Game.over
    simp only []
    split_ifs with h1 h2
    · simp [h1]
    · simp only [reduceCtorEq, false_iff]
      omega
    · simp only [true_iff]
      omega
  · unfold Game.over
    simp only []
    split_ifs <;> simp
  · intro g1 e1 e2
    unfold Game.over
    simp only []
    rw [e1, e2]

/-! ### The constructor -/

/-- C17 as the code has it: immediately after the constructor `Board ()` each of the 64
cells holds the value-initialised color, character code 0, which is none of `white`,
`black` and `none`; no cell counts as empty and no move is valid.  The grid is empty, 60
cells holding `none`, only after `initOthello`. -/
theorem ctor_cells_hold_code_zero :
    (∀ c : Cell, c.inSquare 0 7 = true → Board.ctor.get? c = some ⟨0⟩) ∧
      ((⟨0⟩ : Color) ≠ Color.none ∧ (⟨0⟩ : Color) ≠ Color.white ∧ (⟨0⟩ : Color) ≠ Color.black) ∧
      Board.ctor.count Color.none = 0 ∧
      (∀ (c : Cell) (color : Color), Board.ctor.validMove c color ≠ some true) ∧
      (Board.initOthello Board.ctor).count Color.none = 60 := by
  refine ⟨?_, by decide, by decide, ?_, by decide⟩
  · intro c hc
    obtain ⟨v, hv⟩ := (get?_isSome_iff Board.ctor c).2 hc
    rw [hv]
    unfold Board.get? at hv
    split at hv
    · exact hv.symm ▸ rfl
    · cases hv
  · intro c color h
    have h1 := ((validMove_true_iff Board.ctor c color).1 h).1
    unfold Board.get? at h1
    split at h1
    · have h0 : (⟨0⟩ : Color) = Color.none := Option.some.inj h1
      exact absurd h0 (by decide)
    · cases h1

/-- C17 fails as stated: after the constructor the cell (0, 0) does not hold
`Color::none`. -/
theorem ctor_cell_is_not_none : Board.ctor.get? ⟨0, 0⟩ ≠ some Color.none := by decide

/-! ### The queries on the object -/

theorem read_eq (b : Board) (c : Cell) (hc : c.inSquare 0 7 = true) :
    ∃ v, b.get? c = some v ∧ b.read c = some (v, b) := by
  obtain ⟨v, hv⟩ := (get?_isSome_iff b c).2 hc
  exact ⟨v, hv, by rw [Board.read, hv]⟩

theorem some_bne_some (a c : Color) : (some a != some c) = (a != c) := by
  rw [Bool.eq_iff_iff]
  simp [bne_iff_ne]

theorem loopCondS_eq (b : Board) (color : Color) (current : Cell) :
    b.loopCondS color current = some (b.loopCond color current, b) := by
  have hs : Board.size - 1 = 7 := rfl
  unfold Board.loopCondS Board.loopCond
  rw [hs]
  cases hc : current.inSquare 0 7 with
  | true =>
    obtain ⟨v, hv, hr⟩ := read_eq b current hc
    simp only [if_true, hr, hv]
    by_cases hn : v = Color.none
    · simp [hn]
    · by_cases hvc : v = color
      · simp [hn, hvc]
      · simp [some_bne_some, hn, hvc]
  | false => simp

theorem walkS_eq (color : Color) (x y : Int) :
    ∀ (n : Nat) (b : Board) (current : Cell) (tempFlips : List Cell),
      Board.walkS color x y n b current tempFlips
        = some (b.walk color x y n current tempFlips, b)
  | 0, _, _, _ => rfl
  | n + 1, b, current, tempFlips => by
    rw [Board.walkS, Board.walk, loopCondS_eq]
    cases hc : b.loopCond color current
    · simp
    · simp only [if_true]
      exact walkS_eq color x y n b _ _

theorem flipsDirS_eq (b : Board) (cell : Cell) (color : Color) (result : List Cell)
    (x y : Int) :
    b.flipsDirS cell color result x y = some (b.flipsDir cell color result x y, b) := by
  have hs : Board.size - 1 = 7 := rfl
  unfold Board.flipsDirS Board.flipsDir
  rw [walkS_eq, hs]
  simp only []
  generalize b.walk color x y 8 ⟨cell.row + x, cell.col + y⟩ [] = r
  cases hc : r.1.inSquare 0 7 with
  | true =>
    obtain ⟨v, hv, hr⟩ := read_eq b r.1 hc
    simp only [if_true, hr, hv]
    by_cases hvc : v = color
    · simp [hvc]
    · simp [hvc]
  | false => simp

theorem flipsFrom_eq (cell : Cell) (color : Color) :
    ∀ (ds : List (Int × Int)) (b : Board) (result : List Cell),
      Board.flipsFrom cell color ds b result
        = some (ds.foldl (fun r d => b.flipsDir cell color r d.1 d.2) result, b)
  | [], _, _ => rfl
  | d :: rest, b, result => by
    rw [Board.flipsFrom, flipsDirS_eq]
    exact flipsFrom_eq cell color rest b _

theorem flipsS_eq (b : Board) (cell : Cell) (color : Color) :
    b.flipsS cell color = some (b.flips cell color, b) :=
  flipsFrom_eq cell color directions b []

theorem countFlipsS_eq (b : Board) (cell : Cell) (color : Color) :
    b.countFlipsS cell color = some (b.countFlips cell color, b) := by
  rw [Board.countFlipsS, flipsS_eq]
  rfl

theorem validMoveS_eq (b : Board) (cell : Cell) (color : Color) :
    b.validMoveS cell color = (b.validMove cell color).map (fun r => (r, b)) := by
  unfold Board.validMoveS Board.validMove Board.read
  cases hg : b.get? cell with
  | none => rfl
  | some v =>
    simp only []
    by_cases hn : v = Color.none
    · rw [if_neg (not_not.2 hn), if_neg (not_not.2 hn), countFlipsS_eq]
      simp only []
      by_cases h0 : b.countFlips cell color = 0
      · rw [if_pos h0, if_pos h0]; rfl
      · rw [if_neg h0, if_neg h0]; rfl
    · rw [if_pos hn, if_pos hn]; rfl

theorem canMoveFromS_eq (color : Color) :
    ∀ (l : List Cell) (b : Board),
      Board.canMoveFromS color l b = (b.canMoveFrom color l).map (fun r => (r, b))
  | [], _ => rfl
  | c :: rest, b => by
    rw [Board.canMoveFromS, Board.canMoveFrom, validMoveS_eq]
    cases hv : b.validMove c color with
    | none => rfl
    | some r =>
      cases r
      · exact canMoveFromS_eq color rest b
      · rfl

theorem canMoveS_eq (b : Board) (color : Color) :
    b.canMoveS color = (b.canMove color).map (fun r => (r, b)) :=
  canMoveFromS_eq color allCells b

theorem callTimes_unchanged {α : Type} (f : Board → Option (α × Board)) (b : Board) (r : α)
    (h : f b = some (r, b)) : ∀ n, callTimes f n b = some b
  | 0 => rfl
  | n + 1 => by
    rw [callTimes, h]
    exact callTimes_unchanged f b r h n

/-- C16: `validMove`, `countFlips` and `canMove` have no side effects: the object after a
call (grid and scores) is the object before it, whenever the call returns, and so it is
after any number of calls; a repeated call returns the same result. -/
theorem queries_leave_the_board_unchanged (b : Board) (cell : Cell) (color : Color) :
    b.countFlipsS cell color = some (b.countFlips cell color, b) ∧
      (∀ r b1, b.validMoveS cell color = some (r, b1) →
        b1 = b ∧ b.validMove cell color = some r ∧ b1.validMoveS cell color = some (r, b1)) ∧
      (cell.inSquare 0 7 = true → ∃ r, b.validMoveS cell color = some (r, b)) ∧
      (∃ r, b.canMoveS color = some (r, b) ∧ b.canMove color = some r) ∧
      (∀ n, callTimes (fun s => s.countFlipsS cell color) n b = some b) ∧
      (cell.inSquare 0 7 = true →
        ∀ n, callTimes (fun s => s.validMoveS cell color) n b = some b) ∧
      (∀ n, callTimes (fun s => s.canMoveS color) n b = some b) := by
  have hv : cell.inSquare 0 7 = true → ∃ r, b.validMoveS cell color = some (r, b) := by
    intro hc
    rw [validMoveS_eq]
    rcases validMove_isSome b cell color hc with h | h
    · exact ⟨true, by rw [h]; rfl⟩
    · exact ⟨false, by rw [h]; rfl⟩
  have hcan : ∃ r, b.canMoveS color = some (r, b) ∧ b.canMove color = some r := by
    rw [canMoveS_eq]
    rcases canMove_isSome b color with h | h
    · exact ⟨true, by rw [h]; rfl, h⟩
    · exact ⟨false, by rw [h]; rfl, h⟩
  refine ⟨countFlipsS_eq b cell color, ?_, hv, hcan, ?_, ?_, ?_⟩
  · intro r b1 h
    have h0 := h
    rw [validMoveS_eq] at h
    cases hm : b.validMove cell color with
    | none => rw [hm] at h; cases h
    | some r0 =>
      rw [hm] at h
      cases h
      exact ⟨rfl, rfl, h0⟩
  · exact callTimes_unchanged _ b _ (countFlipsS_eq b cell color)
  · intro hc
    obtain ⟨r, hr⟩ := hv hc
    exact callTimes_unchanged _ b r hr
  · obtain ⟨r, hr, _⟩ := hcan
    exact callTimes_unchanged _ b r hr

/-! ### Totality of the queries -/

/-- C14 as the code has it: `validMove` is a total boolean predicate on the cells of the
board only.  For `row` and `col` in 0..7 it returns a boolean and every grid access is
within the 8 x 8 bounds; for a cell outside the board its first read `board[row][col]` is
outside the grid.  `canMove` returns a boolean, with every access within bounds, for every
board and color. -/
theorem validMove_total_on_board_cells :
    (∀ (b : Board) (cell : Cell) (color : Color), cell.inSquare 0 7 = true →
        (b.validMove cell color = some true ∨ b.validMove cell color = some false) ∧
        ∃ r, b.validMoveS cell color = some (r, b)) ∧
      (∀ (b : Board) (cell : Cell) (color : Color), cell.inSquare 0 7 = false →
        b.validMove cell color = Option.none ∧ b.validMoveS cell color = Option.none) ∧
      (∀ (b : Board) (color : Color),
        (b.canMove color = some true ∨ b.canMove color = some false) ∧
        ∃ r, b.canMoveS color = some (r, b)) := by
  refine ⟨?_, ?_, ?_⟩
  · intro b cell color hc
    have h := validMove_isSome b cell color hc
    refine ⟨h, ?_⟩
    rw [validMoveS_eq]
    rcases h with h | h
    · exact ⟨true, by rw [h]; rfl⟩
    · exact ⟨false, by rw [h]; rfl⟩
  · intro b cell color hc
    have hg : b.get? cell = Option.none := (get?_eq_none_iff b cell).2 hc
    have hv : b.validMove cell color = Option.none := by
      unfold Board.validMove
      rw [hg]
    exact ⟨hv, by rw [validMoveS_eq, hv]; rfl⟩
  · intro b color
    have h := canMove_isSome b color
    refine ⟨h, ?_⟩
    rw [canMoveS_eq]
    rcases h with h | h
    · exact ⟨true, by rw [h]; rfl⟩
    · exact ⟨false, by rw [h]; rfl⟩

/-- C14 fails as stated: for the cell (8, 0), outside the board, `validMove` returns no
boolean, its read `board[8][0]` is outside the grid. -/
theorem validMove_off_board_undefined :
    ¬ ∃ r : Bool, (Board.initOthello Board.ctor).validMove ⟨8, 0⟩ Color.black = some r := by
  decide

/-! ### The precondition of `makeMove` -/

theorem makeMove_of_nil (b : Board) (cell : Cell) (color : Color)
    (h : b.flips cell color = []) : b.makeMove cell color = Option.none := by
  unfold Board.makeMove
  simp only [h]

theorem chooseCell_valid {color : Color} {board : Board} {cell : Cell}
    (h : Computer_player.chooseCell color board = some cell) :
    board.validMove cell color = some true := by
  unfold Computer_player.chooseCell at h
  rw [collect_allCells] at h
  simp only [] at h
  split at h
  · cases h
  · split at h
    · cases h
    · exact (mem_possibilities color board cell).1 (List.mem_iff_getElem?.2 ⟨_, h⟩)

/-- C13 as the code has it: `makeMove` has no guard of its own and relies on the caller.
It reads `cells[0]` whatever the flip list is: with an empty flip list the access is out of
range, and for an on-board cell the call runs within range exactly when the flip list is
not empty, in particular whenever `validMove (cell, color)` is true.  Both callers call it
only with a cell for which `validMove` returned true. -/
theorem makeMove_relies_on_the_caller (b : Board) (cell : Cell) (color : Color)
    (hcell : cell.inSquare 0 7 = true) :
    (b.flips cell color = [] → b.makeMove cell color = Option.none) ∧
      ((∃ b1, b.makeMove cell color = some b1) ↔ b.flips cell color ≠ []) ∧
      (b.validMove cell color = some true → ∃ b1, b.makeMove cell color = some b1) ∧
      (∀ c, Computer_player.chooseCell color b = some c → b.validMove c color = some true) ∧
      (∀ (input rest : List String) (cell0 : Cell) (b1 : Board),
        Human_player.makeMove color b input cell0 = some (b1, rest) →
        ∃ c, b.validMove c color = some true ∧ b.makeMove c color = some b1) := by
  have hiff : (∃ b1, b.makeMove cell color = some b1) ↔ b.flips cell color ≠ [] := by
    constructor
    · rintro ⟨b1, h1⟩ hnil
      rw [makeMove_of_nil b cell color hnil] at h1
      cases h1
    · intro hne
      obtain ⟨b1, _, _, hb1, _⟩ := makeMove_spec b cell color hcell hne
      exact ⟨b1, hb1⟩
  refine ⟨makeMove_of_nil b cell color, hiff, ?_, fun c h => chooseCell_valid h, ?_⟩
  · intro hv
    exact hiff.2 ((validMove_true_iff b cell color).1 hv).2
  · intro input rest cell0 b1 h
    exact humanMove_spec color b input cell0 b1 rest h

theorem makeMove_relies_on_the_caller_witness :
    (⟨0, 0⟩ : Cell).inSquare 0 7 = true ∧
      (Board.initOthello Board.ctor).makeMove ⟨0, 0⟩ Color.black = Option.none :=
  ⟨by decide,
    (makeMove_relies_on_the_caller (Board.initOthello Board.ctor) ⟨0, 0⟩ Color.black
      (by decide)).1 (by decide)⟩

/-- C13 fails as stated: on the `initOthello` board the on-board cell (0, 0) has an empty
flip list for black (`validMove` is false), and `makeMove ((0, 0), black)` still reads
`cells[0]`, out of range. -/
theorem makeMove_reads_first_flip_unguarded :
    (⟨0, 0⟩ : Cell).inSquare 0 7 = true ∧
      (Board.initOthello Board.ctor).flips ⟨0, 0⟩ Color.black = [] ∧
      (Board.initOthello Board.ctor).validMove ⟨0, 0⟩ Color.black = some false ∧
      (Board.initOthello Board.ctor).makeMove ⟨0, 0⟩ Color.black = Option.none :=
  ⟨by decide, by decide, by decide, makeMove_of_nil _ _ _ (by decide)⟩

/-! ### The flip list and the frame of `makeMove` -/

/-- C18: the list `flips (cell, color)` holds no cell twice, does not hold `cell`, holds
only on-board cells, and each of its cells holds on the board a color that is neither
`none` nor `color` (the opposite color when the grid holds only white, black and `none`);
so `countFlips (cell, color)` is the number of distinct cells of the list, the cells other
than `cell` whose color a move changes. -/
theorem flips_distinct_and_opposing (b : Board) (cell : Cell) (color : Color)
    (hcell : cell.inSquare 0 7 = true)
    (hcolor : color = Color.white ∨ color = Color.black) :
    (b.flips cell color).Nodup ∧
      cell ∉ b.flips cell color ∧
      (∀ c ∈ b.flips cell color, c.inSquare 0 7 = true ∧
        ∃ v, b.get? c = some v ∧ v ≠ Color.none ∧ v ≠ color) ∧
      (b.Standard → ∀ c ∈ b.flips cell color, b.get? c = some color.opposite) ∧
      b.countFlips cell color = ((b.flips cell color).toFinset.card : Int) ∧
      (∀ b1, b.makeMove cell color = some b1 →
        ((allCells.countP fun c => decide (c ≠ cell) && decide (b1.get? c ≠ b.get? c) : Nat)
          : Int) = b.countFlips cell color) := by
  have hopp : ∀ c ∈ b.flips cell color, c.inSquare 0 7 = true ∧
      ∃ v, b.get? c = some v ∧ v ≠ Color.none ∧ v ≠ color := by
    intro c hc
    have ho := flips_opposing hc
    obtain ⟨v, hv⟩ := (get?_isSome_iff b c).2 ho.1
    rw [hv] at ho
    exact ⟨ho.1, v, hv, fun e => ho.2.1 (congrArg some e), fun e => ho.2.2 (congrArg some e)⟩
  refine ⟨flips_nodup b cell color, cell_not_mem_flips b cell color, hopp, ?_, ?_, ?_⟩
  · intro hstd c hc
    obtain ⟨_, v, hv, h1, h2⟩ := hopp c hc
    rw [hv, opposite_of_standard hcolor (hstd c v hv) h1 h2]
  · unfold Board.countFlips
    rw [List.toFinset_card_of_nodup (flips_nodup b cell color)]
  · intro b1 hb1
    have hne : b.flips cell color ≠ [] := by
      intro hnil
      rw [makeMove_of_nil b cell color hnil] at hb1
      cases hb1
    obtain ⟨b2, _, _, hb2, _, _, _, hg⟩ := makeMove_spec b cell color hcell hne
    rw [hb1] at hb2
    cases hb2
    unfold Board.countFlips
    rw [← countP_mem_eq_length allCells_nodup (flips_nodup b cell color)
      (fun c hc => (mem_allCells c).2 (hopp c hc).1)]
    congr 1
    apply List.countP_congr
    intro c _
    simp only [Bool.and_eq_true, decide_eq_true_eq]
    rw [hg c]
    constructor
    · rintro ⟨h1, h2⟩
      by_contra hc
      apply h2
      rw [if_neg]
      rintro (h | h)
      · exact h1 h
      · exact hc h
    · intro hc
      refine ⟨fun e => cell_not_mem_flips b cell color (e ▸ hc), ?_⟩
      rw [if_pos (Or.inr hc)]
      obtain ⟨_, v, hv, _, h2⟩ := hopp c hc
      rw [hv]
      exact fun e => h2 (Option.some.inj e).symm

theorem flips_distinct_and_opposing_witness :
    (⟨2, 3⟩ : Cell).inSquare 0 7 = true ∧
      (Color.black = Color.white ∨ Color.black = Color.black) ∧
      ((Board.initOthello Board.ctor).flips ⟨2, 3⟩ Color.black).Nodup ∧
      (⟨2, 3⟩ : Cell) ∉ (Board.initOthello Board.ctor).flips ⟨2, 3⟩ Color.black :=
  ⟨by decide, Or.inr rfl,
    (flips_distinct_and_opposing (Board.initOthello Board.ctor) ⟨2, 3⟩ Color.black (by decide)
      (Or.inr rfl)).1,
    (flips_distinct_and_opposing (Board.initOthello Board.ctor) ⟨2, 3⟩ Color.black (by decide)
      (Or.inr rfl)).2.1⟩

/-- C19: `makeMove` changes nothing but the placed cell and the flipped cells: for an
on-board cell and a color in {white, black} with `validMove (cell, color)` true, every grid
cell other than `cell` and the cells of `flips (cell, color)` holds the same color after
`makeMove (cell, color)` as before, and no occupied cell becomes `none`. -/
theorem makeMove_keeps_other_cells (b : Board) (cell : Cell) (color : Color)
    (hcell : cell.inSquare 0 7 = true)
    (hcolor : color = Color.white ∨ color = Color.black)
    (hvalid : b.validMove cell color = some true) :
    ∃ b1, b.makeMove cell color = some b1 ∧
      (∀ c, c ≠ cell → c ∉ b.flips cell color → b1.get? c = b.get? c) ∧
      (∀ c v, b.get? c = some v → v ≠ Color.none → b1.get? c ≠ some Color.none) := by
  have hne := ((validMove_true_iff b cell color).1 hvalid).2
  have hcn : color ≠ Color.none := by
    rcases hcolor with h | h <;> rw [h] <;> decide
  obtain ⟨b1, _, _, hb1, _, _, _, hg⟩ := makeMove_spec b cell color hcell hne
  refine ⟨b1, hb1, ?_, ?_⟩
  · intro c h1 h2
    rw [hg c, if_neg]
    rintro (h | h)
    · exact h1 h
    · exact h2 h
  · intro c v hv hvn
    rw [hg c]
    split
    · exact fun e => hcn (Option.some.inj e)
    · rw [hv]
      exact fun e => hvn (Option.some.inj e)

theorem makeMove_keeps_other_cells_witness :
    (⟨2, 3⟩ : Cell).inSquare 0 7 = true ∧
      (Color.black = Color.white ∨ Color.black = Color.black) ∧
      (Board.initOthello Board.ctor).validMove ⟨2, 3⟩ Color.black = some true ∧
      ∃ b1, (Board.initOthello Board.ctor).makeMove ⟨2, 3⟩ Color.black = some b1 ∧
        b1.get? ⟨4, 4⟩ = (Board.initOthello Board.ctor).get? ⟨4, 4⟩ :=
  ⟨by decide, Or.inr rfl, by decide,
    let ⟨b1, h1, h2, _⟩ :=
      makeMove_keeps_other_cells (Board.initOthello Board.ctor) ⟨2, 3⟩ Color.black (by decide)
        (Or.inr rfl) (by decide)
    ⟨b1, h1, h2 ⟨4, 4⟩ (by decide) (by decide)⟩⟩

/-! ### The number of moves of a game -/

/-- A legal move of a color other than `none` takes one cell from those holding `none`. -/
theorem none_count_after_move (b : Board) (cell : Cell) (color : Color)
    (hcn : color ≠ Color.none) (hvalid : b.validMove cell color = some true) :
    ∃ b1, b.makeMove cell color = some b1 ∧ b1.count Color.none + 1 = b.count Color.none := by
  obtain ⟨hempty, hne⟩ := (validMove_true_iff b cell color).1 hvalid
  have hcell : cell.inSquare 0 7 = true := (get?_isSome_iff b cell).1 ⟨_, hempty⟩
  obtain ⟨b1, _, _, hb1, _, _, _, hg⟩ := makeMove_spec b cell color hcell hne
  refine ⟨b1, hb1, ?_⟩
  have := count_after_other (T := [cell]) hg (Ne.symm hcn) (List.nodup_singleton cell)
    (by
      intro c
      rw [List.mem_singleton]
      constructor
      · intro h
        rw [h]
        exact ⟨Or.inl rfl, hempty⟩
      · rintro ⟨h1 | h1, h2⟩
        · exact h1
        · exact absurd h2 (flips_opposing h1).2.1)
  simp only [List.length_singleton] at this
  omega

theorem player_color_ne_none {color : Color}
    (hcolor : color = Color.white ∨ color = Color.black) : color ≠ Color.none := by
  rcases hcolor with h | h <;> rw [h] <;> decide

theorem legalMoves_count {b b1 : Board} {n : Nat} (h : Board.LegalMoves b n b1) :
    b1.count Color.none + n = b.count Color.none := by
  induction h with
  | zero => rfl
  | move b1 b2 n cell color _ hcolor hvalid hmove ih =>
    obtain ⟨b3, hb3, hc⟩ := none_count_after_move b1 cell color (player_color_ne_none hcolor)
      hvalid
    rw [hmove] at hb3
    cases hb3
    omega

theorem initOthello_count_none (b0 : Board) : (Board.initOthello b0).count Color.none = 60 := by
  have e : (Board.initOthello b0).count Color.none
      = (Board.initOthello Board.ctor).count Color.none := rfl
  rw [e]
  decide

/-- An iteration of the loop is a valid move of one of the two players followed by the end
of the turn. -/
theorem iteration_spec {g g1 : Game} {turn turn1 : Color} {input rest : List String}
    {cell : Cell} (h : g.iteration turn input cell = some (g1, turn1, rest)) :
    ∃ (b1 : Board) (next c color : Color) (cl : Cell),
      c = color ∧ (color = g.human ∨ color = g.computer) ∧
      g.board.validMove cl color = some true ∧ g.board.makeMove cl color = some b1 ∧
      Game.endTurn { g with board := b1 } turn next = some (g1, turn1) := by
  unfold Game.iteration at h
  split at h
  · split at h
    · cases h
    next b1 rest1 hm =>
      split at h
      · cases h
      next g2 turn2 he =>
        cases h
        obtain ⟨cl, hv, hmk⟩ := humanMove_spec g.human g.board input cell b1 _ hm
        exact ⟨b1, g.computer, g.human, g.human, cl, rfl, Or.inl rfl, hv, hmk, he⟩
  · split at h
    · cases h
    next b1 hm =>
      split at h
      · cases h
      next g2 turn2 he =>
        cases h
        unfold Computer_player.makeMove at hm
        split at hm
        · cases hm
        next cl hch =>
          exact ⟨b1, g.human, g.computer, g.computer, cl, rfl, Or.inr rfl, chooseCell_valid hch,
            hm, he⟩

theorem afterIterations_atLoopHead {n : Nat} {g : Game} {turn : Color}
    (h : Game.AfterIterations n g turn) : Game.AtLoopHead g turn := by
  induction h with
  | start g option hopt => exact Game.AtLoopHead.start g option hopt
  | next n g g1 turn turn1 input rest cell _ hfin hit ih =>
    exact Game.AtLoopHead.next g g1 turn turn1 input rest cell ih hfin hit

theorem afterIterations_count {n : Nat} {g : Game} {turn : Color}
    (h : Game.AfterIterations n g turn) : g.board.count Color.none + n = 60 := by
  induction h with
  | start g option hopt =>
    have e : (Game.start g option).1.board = Board.initOthello g.board := by
      unfold Game.start Game.createPlayers
      simp only []
      split <;> rfl
    rw [e, initOthello_count_none]
  | next n g g1 turn turn1 input rest cell hprev hfin hit ih =>
    obtain ⟨hcolors, _, _⟩ := loop_invariant (afterIterations_atLoopHead hprev)
    obtain ⟨b1, next, c, color, cl, _, hcol, hv, hmk, he⟩ := iteration_spec hit
    have hcolor : color = Color.white ∨ color = Color.black := by
      rcases hcolors with ⟨h1, h2⟩ | ⟨h1, h2⟩ <;> rcases hcol with h | h <;> rw [h] <;>
        simp [h1, h2]
    obtain ⟨b2, hb2, hc⟩ := none_count_after_move g.board cl color
      (player_color_ne_none hcolor) hv
    rw [hmk] at hb2
    cases hb2
    obtain ⟨e1, _⟩ := endTurn_some he
    rw [e1]
    simp only []
    omega

theorem canMove_false_of_full (b : Board) (color : Color)
    (h : b.count Color.none = 0) : b.canMove color = some false := by
  rcases canMove_isSome b color with hc | hc
  · exfalso
    obtain ⟨r, hr, hiff⟩ := canMove_spec b color
    rw [hc] at hr
    cases hr
    obtain ⟨c, hin, hv⟩ := hiff.1 rfl
    have hempty := ((validMove_true_iff b c color).1 hv).1
    unfold Board.count at h
    rw [List.countP_eq_zero] at h
    exact h c ((mem_allCells c).2 hin) (by simp [hempty])
  · exact hc

/-- At a loop head of an unfinished game the iteration is carried out as soon as the
player to move supplies its move: the computer always does, the human when its input holds
an accepted token of a valid move. -/
theorem iteration_defined {g : Game} {turn : Color} (hloop : Game.AtLoopHead g turn)
    (hfin : g.finished = false) (input : List String) (cell : Cell)
    (hhuman : turn = g.human →
      ∃ r, Human_player.makeMove g.human g.board input cell = some r) :
    ∃ g1 turn1 rest, g.iteration turn input cell = some (g1, turn1, rest) := by
  obtain ⟨_, hturn, hcan⟩ := loop_invariant hloop
  unfold Game.iteration
  by_cases hh : turn = g.human
  · obtain ⟨⟨b1, rest⟩, hr⟩ := hhuman hh
    obtain ⟨g1, turn1, he, _⟩ := endTurn_spec { g with board := b1 } turn g.computer
    rw [if_pos hh, hr]
    simp only [he]
    exact ⟨g1, turn1, rest, rfl⟩
  · have ht : turn = g.computer := by
      rcases hturn with h | h
      · exact absurd h hh
      · exact h
    have hc := hcan hfin
    rw [ht] at hc
    obtain ⟨cl, h1, h2, _⟩ := chooseCell_spec g.computer g.board hc
    obtain ⟨hempty, hne⟩ := (validMove_true_iff g.board cl g.computer).1 h2
    obtain ⟨b1, _, _, hb1, _⟩ := makeMove_spec g.board cl g.computer
      ((get?_isSome_iff g.board cl).1 ⟨_, hempty⟩) hne
    have hm : Computer_player.makeMove g.computer g.board = some b1 := by
      unfold Computer_player.makeMove
      rw [h1]
      exact hb1
    obtain ⟨g1, turn1, he, _⟩ := endTurn_spec { g with board := b1 } turn g.human
    rw [if_neg hh, hm]
    simp only [he]
    exact ⟨g1, turn1, input, rfl⟩

/-- C20: every legal move fills exactly one empty cell: for an on-board cell and a color in
{white, black} with `validMove (cell, color)` true, the number of `none` cells after
`makeMove (cell, color)` is one less than before.  So `n` successive legal moves from the
`initOthello` position leave `60 - n` empty cells and `n` is at most 60, the loop of
`Game::play` has run at most 60 iterations at any of its loop heads, after 60 iterations
the game is finished, and before that an unfinished game goes on by one more iteration as
soon as the player to move supplies its move. -/
theorem legal_move_fills_one_empty_cell :
    (∀ (b : Board) (cell : Cell) (color : Color), cell.inSquare 0 7 = true →
        (color = Color.white ∨ color = Color.black) → b.validMove cell color = some true →
        ∃ b1, b.makeMove cell color = some b1 ∧
          b1.count Color.none + 1 = b.count Color.none) ∧
      (∀ (b0 b1 : Board) (n : Nat), Board.LegalMoves (Board.initOthello b0) n b1 →
        b1.count Color.none + n = 60 ∧ n ≤ 60) ∧
      (∀ (n : Nat) (g : Game) (turn : Color), Game.AfterIterations n g turn →
        g.board.count Color.none + n = 60 ∧ n ≤ 60) ∧
      (∀ (g : Game) (turn : Color), Game.AfterIterations 60 g turn → g.finished = true) ∧
      (∀ (n : Nat) (g : Game) (turn : Color) (input : List String) (cell : Cell),
        Game.AfterIterations n g turn → g.finished = false →
        (turn = g.human → ∃ r, Human_player.makeMove g.human g.board input cell = some r) →
        ∃ g1 turn1 rest, g.iteration turn input cell = some (g1, turn1, rest) ∧
          Game.AfterIterations (n + 1) g1 turn1 ∧ n < 60) := by
  refine ⟨?_, ?_, ?_, ?_, ?_⟩
  · intro b cell color _ hcolor hvalid
    exact none_count_after_move b cell color (player_color_ne_none hcolor) hvalid
  · intro b0 b1 n h
    have := legalMoves_count h
    rw [initOthello_count_none] at this
    exact ⟨this, by omega⟩
  · intro n g turn h
    have := afterIterations_count h
    exact ⟨this, by omega⟩
  · intro g turn h
    have hcount := afterIterations_count h
    have hfull : g.board.count Color.none = 0 := by omega
    cases hf : g.finished with
    | true => rfl
    | false =>
      exfalso
      have hcan := (loop_invariant (afterIterations_atLoopHead h)).2.2 hf
      rw [canMove_false_of_full g.board turn hfull] at hcan
      cases hcan
  · intro n g turn input cell h hfin hhuman
    obtain ⟨g1, turn1, rest, hit⟩ :=
      iteration_defined (afterIterations_atLoopHead h) hfin input cell hhuman
    have hnext := Game.AfterIterations.next n g g1 turn turn1 input rest cell h hfin hit
    have := afterIterations_count hnext
    exact ⟨g1, turn1, rest, hit, hnext, by omega⟩

theorem legal_move_fills_one_empty_cell_witness :
    (⟨2, 3⟩ : Cell).inSquare 0 7 = true ∧
      (Color.black = Color.white ∨ Color.black = Color.black) ∧
      (Board.initOthello Board.ctor).validMove ⟨2, 3⟩ Color.black = some true ∧
      ∃ b1, (Board.initOthello Board.ctor).makeMove ⟨2, 3⟩ Color.black = some b1 ∧
        b1.count Color.none + 1 = (Board.initOthello Board.ctor).count Color.none :=
  ⟨by decide, Or.inr rfl, by decide,
    legal_move_fills_one_empty_cell.1 (Board.initOthello Board.ctor) ⟨2, 3⟩ Color.black
      (by decide) (Or.inr rfl) (by decide)⟩

/-! ### The turn transition of an iteration -/

/-- Which player an iteration invokes and which color it passes on as `next`: the human and
the computer's color when `turn` is the human's color, else the computer and the human's
color. -/
theorem iteration_mover {g g1 : Game} {turn turn1 : Color} {input rest : List String}
    {cell : Cell} (h : g.iteration turn input cell = some (g1, turn1, rest)) :
    ∃ (b1 : Board) (cl : Cell) (mover next : Color),
      ((turn = g.human ∧ mover = g.human ∧ next = g.computer) ∨
        (turn ≠ g.human ∧ mover = g.computer ∧ next = g.human)) ∧
      g.board.validMove cl mover = some true ∧ g.board.makeMove cl mover = some b1 ∧
      Game.endTurn { g with board := b1 } turn next = some (g1, turn1) := by
  unfold Game.iteration at h
  split at h
  next hh =>
    split at h
    · cases h
    next b1 rest1 hm =>
      split at h
      · cases h
      next g2 turn2 he =>
        cases h
        obtain ⟨cl, hv, hmk⟩ := humanMove_spec g.human g.board input cell b1 _ hm
        exact ⟨b1, cl, g.human, g.computer, Or.inl ⟨hh, rfl, rfl⟩, hv, hmk, he⟩
  next hh =>
    split at h
    · cases h
    next b1 hm =>
      split at h
      · cases h
      next g2 turn2 he =>
        cases h
        unfold Computer_player.makeMove at hm
        split at hm
        · cases hm
        next cl hch =>
          exact ⟨b1, cl, g.computer, g.human, Or.inr ⟨hh, rfl, rfl⟩, chooseCell_valid hch, hm,
            he⟩

/-- C6: in an iteration of the loop of `Game::play`, begun at a loop head with `turn` to
move, the player of the color `turn` makes a valid move, and on the board after it, with
`other` the opposite color: the next mover is `other` if `canMove (other)`; otherwise it is
`turn` again (forced pass) if `canMove (turn)`; otherwise the game is finished.  So
`finished` becomes true if and only if `canMove (white)` and `canMove (black)` are both
false on that board, and one side being unable to move never ends the game. -/
theorem iteration_turn_transition (g g1 : Game) (turn turn1 : Color)
    (input rest : List String) (cell : Cell)
    (hloop : Game.AtLoopHead g turn) (hfin : g.finished = false)
    (hit : g.iteration turn input cell = some (g1, turn1, rest)) :
    (turn = Color.white ∨ turn = Color.black) ∧
      (∃ cl, g.board.validMove cl turn = some true ∧
        g.board.makeMove cl turn = some g1.board) ∧
      (g1.board.canMove turn.opposite = some true →
        turn1 = turn.opposite ∧ g1.finished = false) ∧
      (g1.board.canMove turn.opposite = some false → g1.board.canMove turn = some true →
        turn1 = turn ∧ g1.finished = false) ∧
      (g1.board.canMove turn.opposite = some false → g1.board.canMove turn = some false →
        g1.finished = true) ∧
      (g1.finished = true ↔
        g1.board.canMove Color.white = some false ∧
          g1.board.canMove Color.black = some false) ∧
      Game.AtLoopHead g1 turn1 := by
  obtain ⟨hcolors, hturn, _⟩ := loop_invariant hloop
  obtain ⟨b1, cl, mover, next, hwho, hv, hmk, he⟩ := iteration_mover hit
  have hmn : mover = turn ∧
      ((turn = Color.white ∧ next = Color.black) ∨ (turn = Color.black ∧ next = Color.white)) := by
    rcases hwho with ⟨h1, h2, h3⟩ | ⟨h1, h2, h3⟩
    · rcases hcolors with ⟨c1, c2⟩ | ⟨c1, c2⟩
      · exact ⟨by rw [h2, h1], Or.inl ⟨by rw [h1, c1], by rw [h3, c2]⟩⟩
      · exact ⟨by rw [h2, h1], Or.inr ⟨by rw [h1, c1], by rw [h3, c2]⟩⟩
    · have ht : turn = g.computer := by
        rcases hturn with h | h
        · exact absurd h h1
        · exact h
      rcases hcolors with ⟨c1, c2⟩ | ⟨c1, c2⟩
      · exact ⟨by rw [h2, ht], Or.inr ⟨by rw [ht, c2], by rw [h3, c1]⟩⟩
      · exact ⟨by rw [h2, ht], Or.inl ⟨by rw [ht, c2], by rw [h3, c1]⟩⟩
  obtain ⟨hm, hpair⟩ := hmn
  subst hm
  have hopp : next = mover.opposite := by
    rcases hpair with ⟨h1, h2⟩ | ⟨h1, h2⟩ <;> rw [h1, h2] <;> decide
  subst hopp
  obtain ⟨g2, turn2, he2, hb, k1, k2, k3, k4⟩ :=
    endTurn_transition { g with board := b1 } mover mover.opposite hpair hfin
  rw [he] at he2
  cases he2
  have hb1 : g1.board = b1 := hb
  rw [hb1]
  refine ⟨?_, ⟨cl, hv, hmk⟩, k1, k2, k3, k4, ?_⟩
  · rcases hpair with ⟨h1, _⟩ | ⟨h1, _⟩
    · exact Or.inl h1
    · exact Or.inr h1
  · exact Game.AtLoopHead.next g g1 mover turn1 input rest cell hloop hfin hit

theorem iteration_turn_transition_witness :
    ∃ g1 turn1 rest,
      Game.AtLoopHead (Game.start (Game.mk Board.ctor Color.none Color.none true) 'b').1
        Color.black ∧
      (Game.start (Game.mk Board.ctor Color.none Color.none true) 'b').1.finished = false ∧
      (Game.start (Game.mk Board.ctor Color.none Color.none true) 'b').1.iteration Color.black
        ["3d"] ⟨0, 0⟩ = some (g1, turn1, rest) ∧
      (g1.finished = true ↔
        g1.board.canMove Color.white = some false ∧
          g1.board.canMove Color.black = some false) := by
  have hloop : Game.AtLoopHead (Game.start (Game.mk Board.ctor Color.none Color.none true) 'b').1
      Color.black := Game.AtLoopHead.start _ 'b' (Or.inr rfl)
  have hv : (Board.initOthello Board.ctor).validMove ⟨2, 3⟩ Color.black = some true := by
    decide
  obtain ⟨b1, hb1, _⟩ := makeMove_of_valid (Board.initOthello Board.ctor) ⟨2, 3⟩ Color.black
    (initOthello_standard _) (Or.inr rfl) hv
  have hhuman : Human_player.makeMove Color.black (Board.initOthello Board.ctor) ["3d"] ⟨0, 0⟩
      = some (b1, []) := by
    have e : Human_player.validTurnString "3d" ⟨0, 0⟩ = (true, ⟨2, 3⟩) := rfl
    rw [Human_player.makeMove, e]
    simp only [Human_player.validTurn, hv, hb1, if_true]
  obtain ⟨g1, turn1, rest, hit⟩ := iteration_defined hloop rfl ["3d"] ⟨0, 0⟩
    (fun _ => ⟨(b1, []), hhuman⟩)
  exact ⟨g1, turn1, rest, hloop, rfl, hit,
    (iteration_turn_transition _ g1 Color.black turn1 ["3d"] rest ⟨0, 0⟩ hloop rfl hit).2.2.2.2.2.1⟩

end Reversi
